import Mathlib

/-!
Verification development for the POF model library (`src/pof/src/types.rs`).

Modelling conventions used throughout:
* Rust `f32` geometry values are embedded as exact rationals (`ℚ`); the
  IEEE-754 infinities that occur only in the `BoundingBox::EMPTY` sentinel
  are embedded by the three-point extension `Ext` of `ℚ` with a bottom and a
  top element.  `f32::sqrt` (used only to normalize polygon normals, whose
  value none of the verified properties depend on) is embedded by the
  rational square-root approximation `Rat.sqrt`.
* Where serialization compares or emits raw `f32` bit patterns
  (`Vec3d`'s bitwise `PartialEq`, the byte writer), an `f32` is embedded as
  its 32-bit pattern (a `Nat`), which is exact.
* Rust loops over mutable state are embedded as folds or fuel-indexed
  recursive functions; a fuel-indexed function returns `none` when the
  source loop has not terminated within the given fuel.
* Rust `String` is embedded as `List Char`; `usize` indices as `Nat`.
-/

namespace Pof

/-- `f32` values extended with the two IEEE infinities, exactly the values
that arise in bounding-box arithmetic (`BoundingBox::EMPTY` uses
`f32::INFINITY` / `f32::NEG_INFINITY`).  `bot` is `-∞`, `top` is `+∞`. -/
inductive Ext where
  | bot : Ext
  | fin : ℚ → Ext
  | top : Ext
deriving DecidableEq

namespace Ext

/-- The `<=` order on `Ext`, matching IEEE comparison on `{-∞} ∪ ℚ ∪ {+∞}`. -/
def le : Ext → Ext → Prop
  | bot, _ => True
  | fin _, bot => False
  | fin a, fin b => a ≤ b
  | fin _, top => True
  | top, top => True
  | top, _ => False

instance : (a b : Ext) → Decidable (le a b)
  | bot, b => by cases b <;> exact inferInstanceAs (Decidable True)
  | fin _, bot => inferInstanceAs (Decidable False)
  | fin a, fin b => inferInstanceAs (Decidable (a ≤ b))
  | fin _, top => inferInstanceAs (Decidable True)
  | top, bot => inferInstanceAs (Decidable False)
  | top, fin _ => inferInstanceAs (Decidable False)
  | top, top => inferInstanceAs (Decidable True)

/-- The `<` order on `Ext`. -/
def lt : Ext → Ext → Prop
  | _, bot => False
  | bot, _ => True
  | fin a, fin b => a < b
  | fin _, top => True
  | top, _ => False

instance : (a b : Ext) → Decidable (lt a b)
  | a, bot => by cases a <;> exact inferInstanceAs (Decidable False)
  | bot, fin _ => inferInstanceAs (Decidable True)
  | bot, top => inferInstanceAs (Decidable True)
  | fin a, fin b => inferInstanceAs (Decidable (a < b))
  | fin _, top => inferInstanceAs (Decidable True)
  | top, fin _ => inferInstanceAs (Decidable False)
  | top, top => inferInstanceAs (Decidable False)

/-- `f32::min` (no NaN arises in the embedding). -/
def min (a b : Ext) : Ext := if le a b then a else b

/-- `f32::max` (no NaN arises in the embedding). -/
def max (a b : Ext) : Ext := if le a b then b else a

/-- Add a finite rational to an extended value; infinities absorb, exactly as
IEEE `±∞ + finite = ±∞`. -/
def addQ : Ext → ℚ → Ext
  | bot, _ => bot
  | fin a, q => fin (a + q)
  | top, _ => top

/-- Subtraction, used only by `BoundingBox::size_on_axis`.  The IEEE results
for mixed infinities are kept; the two NaN cases `∞ - ∞` are given the
arbitrary value `0` (they influence only the choice of split axis during
tree construction, which none of the verified properties depend on). -/
def sub : Ext → Ext → Ext
  | fin a, fin b => fin (a - b)
  | fin _, top => bot
  | fin _, bot => top
  | top, fin _ => top
  | top, bot => top
  | bot, fin _ => bot
  | bot, top => bot
  | top, top => fin 0
  | bot, bot => fin 0

theorem le_refl (a : Ext) : le a a := by cases a <;> simp [le]

theorem le_trans {a b c : Ext} (h1 : le a b) (h2 : le b c) : le a c := by
  cases a <;> cases b <;> cases c <;> simp_all [le]
  exact h1.trans h2

theorem le_total (a b : Ext) : le a b ∨ le b a := by
  cases a <;> cases b <;> simp [le]
  rename_i x y
  exact (le_or_lt x y).imp_right (fun h => h.le)

theorem min_le_left (a b : Ext) : le (min a b) a := by
  unfold min; split
  · exact le_refl a
  · rcases le_total a b with h | h
    · contradiction
    · exact h

theorem min_le_right (a b : Ext) : le (min a b) b := by
  unfold min; split
  · assumption
  · exact le_refl b

theorem le_min {a b c : Ext} (h1 : le a b) (h2 : le a c) : le a (min b c) := by
  unfold min; split <;> assumption

theorem le_max_left (a b : Ext) : le a (max a b) := by
  unfold max; split
  · assumption
  · exact le_refl a

theorem le_max_right (a b : Ext) : le b (max a b) := by
  unfold max; split
  · exact le_refl b
  · rcases le_total a b with h | h
    · contradiction
    · exact h

theorem max_le {a b c : Ext} (h1 : le a c) (h2 : le b c) : le (max a b) c := by
  unfold max; split <;> assumption

theorem bot_le (a : Ext) : le bot a := by cases a <;> simp [le]

theorem le_top (a : Ext) : le a top := by cases a <;> simp [le]

/-- Padding downward (`x - pad` with `pad ≥ 0`) does not increase a value. -/
theorem addQ_neg_le (a : Ext) {q : ℚ} (h : 0 ≤ q) : le (addQ a (-q)) a := by
  cases a with
  | bot => simp [addQ, le]
  | fin x => simp only [addQ, le]; linarith
  | top => simp [addQ, le]

/-- Padding upward (`x + pad` with `pad ≥ 0`) does not decrease a value. -/
theorem le_addQ (a : Ext) {q : ℚ} (h : 0 ≤ q) : le a (addQ a q) := by
  cases a with
  | bot => simp [addQ, le]
  | fin x => simp only [addQ, le]; linarith
  | top => simp [addQ, le]

end Ext

/-- `Axis` from the source. -/
inductive Axis where
  | X : Axis
  | Y : Axis
  | Z : Axis
deriving DecidableEq

/-- `Vec3d`, with the finite `f32` coordinates embedded as rationals. -/
structure Vec3d where
  x : ℚ
  y : ℚ
  z : ℚ
deriving DecidableEq

namespace Vec3d

def zero : Vec3d := ⟨0, 0, 0⟩

def get (v : Vec3d) : Axis → ℚ
  | Axis.X => v.x
  | Axis.Y => v.y
  | Axis.Z => v.z

/-- `impl Add for Vec3d`. -/
def add (a b : Vec3d) : Vec3d := ⟨a.x + b.x, a.y + b.y, a.z + b.z⟩

/-- `impl Sub for Vec3d`. -/
def sub (a b : Vec3d) : Vec3d := ⟨a.x - b.x, a.y - b.y, a.z - b.z⟩

/-- `impl Mul<f32> for Vec3d`. -/
def scale (a : Vec3d) (q : ℚ) : Vec3d := ⟨a.x * q, a.y * q, a.z * q⟩

/-- `Vec3d::cross`. -/
def cross (a b : Vec3d) : Vec3d :=
  ⟨a.y * b.z - a.z * b.y, a.z * b.x - a.x * b.z, a.x * b.y - a.y * b.x⟩

/-- `Vec3d::magnitude_squared`. -/
def magnitudeSquared (v : Vec3d) : ℚ := v.x * v.x + v.y * v.y + v.z * v.z

/-- `Vec3d::magnitude`.  The `f32` square root is embedded by the rational
square-root approximation; none of the verified properties depend on the
numeric value it returns. -/
def magnitude (v : Vec3d) : ℚ := Rat.sqrt v.magnitudeSquared

/-- `Vec3d::normalize`: `self * (1.0 / mag)`. -/
def normalize (v : Vec3d) : Vec3d := v.scale (1 / v.magnitude)

/-- `Vec3d::average`: sum the vectors, then divide by the count.  (For an
empty iterator the source divides zero by zero, producing NaN in `f32`; in
the rational embedding `0 / 0 = 0`.) -/
def average (l : List Vec3d) : Vec3d :=
  let out := l.foldl add zero
  ⟨out.x / (l.length : ℚ), out.y / (l.length : ℚ), out.z / (l.length : ℚ)⟩

end Vec3d

/-- A corner of a `BoundingBox`: a `Vec3d` whose coordinates may be the
infinities of the `EMPTY` sentinel. -/
structure EVec3 where
  x : Ext
  y : Ext
  z : Ext
deriving DecidableEq

def EVec3.get (v : EVec3) : Axis → Ext
  | Axis.X => v.x
  | Axis.Y => v.y
  | Axis.Z => v.z

/-- `BoundingBox`. -/
structure BoundingBox where
  min : EVec3
  max : EVec3
deriving DecidableEq

namespace BoundingBox

/-- `BoundingBox::ZERO`. -/
def ZERO : BoundingBox := ⟨⟨.fin 0, .fin 0, .fin 0⟩, ⟨.fin 0, .fin 0, .fin 0⟩⟩

/-- `BoundingBox::EMPTY`: `min = +∞`, `max = -∞`. -/
def EMPTY : BoundingBox := ⟨⟨.top, .top, .top⟩, ⟨.bot, .bot, .bot⟩⟩

/-- `BoundingBox::size_on_axis`. -/
def sizeOnAxis (b : BoundingBox) (a : Axis) : Ext :=
  Ext.sub (b.max.get a) (b.min.get a)

/-- `BoundingBox::greatest_dimension`: `max_by` over `[X, Y, Z]`, which keeps
the later axis on ties. -/
def greatestDimension (b : BoundingBox) : Axis :=
  let acc := Axis.X
  let acc := if Ext.le (b.sizeOnAxis acc) (b.sizeOnAxis Axis.Y) then Axis.Y else acc
  if Ext.le (b.sizeOnAxis acc) (b.sizeOnAxis Axis.Z) then Axis.Z else acc

/-- `BoundingBox::expand_vec`. -/
def expandVec (b : BoundingBox) (v : Vec3d) : BoundingBox :=
  { min := ⟨Ext.min b.min.x (.fin v.x), Ext.min b.min.y (.fin v.y), Ext.min b.min.z (.fin v.z)⟩,
    max := ⟨Ext.max b.max.x (.fin v.x), Ext.max b.max.y (.fin v.y), Ext.max b.max.z (.fin v.z)⟩ }

/-- `BoundingBox::expand_bbox`. -/
def expandBbox (b c : BoundingBox) : BoundingBox :=
  { min := ⟨Ext.min b.min.x c.min.x, Ext.min b.min.y c.min.y, Ext.min b.min.z c.min.z⟩,
    max := ⟨Ext.max b.max.x c.max.x, Ext.max b.max.y c.max.y, Ext.max b.max.z c.max.z⟩ }

/-- `BoundingBox::from_vectors`: fold `expand_vec` starting from `EMPTY`. -/
def fromVectors (l : List Vec3d) : BoundingBox := l.foldl expandVec EMPTY

/-- `BoundingBox::from_bboxes`. -/
def fromBboxes (l : List BoundingBox) : BoundingBox := l.foldl expandBbox EMPTY

/-- `BoundingBox::pad`. -/
def pad (b : BoundingBox) (p : ℚ) : BoundingBox :=
  { min := ⟨b.min.x.addQ (-p), b.min.y.addQ (-p), b.min.z.addQ (-p)⟩,
    max := ⟨b.max.x.addQ p, b.max.y.addQ p, b.max.z.addQ p⟩ }

/-- `BoundingBox::contains`: false iff the point is strictly outside on some
axis. -/
def contains (b : BoundingBox) (v : Vec3d) : Bool :=
  !(decide (Ext.lt (.fin v.x) b.min.x) || decide (Ext.lt b.max.x (.fin v.x)) ||
    decide (Ext.lt (.fin v.y) b.min.y) || decide (Ext.lt b.max.y (.fin v.y)) ||
    decide (Ext.lt (.fin v.z) b.min.z) || decide (Ext.lt b.max.z (.fin v.z)))

/-- Box inclusion, componentwise: `inner` lies inside `outer`. -/
def subsetOf (inner outer : BoundingBox) : Prop :=
  Ext.le outer.min.x inner.min.x ∧ Ext.le outer.min.y inner.min.y ∧
  Ext.le outer.min.z inner.min.z ∧ Ext.le inner.max.x outer.max.x ∧
  Ext.le inner.max.y outer.max.y ∧ Ext.le inner.max.z outer.max.z

end BoundingBox

theorem Ext.not_lt {a b : Ext} : ¬ Ext.lt a b ↔ Ext.le b a := by
  cases a <;> cases b <;> simp [Ext.lt, Ext.le]

/-- `contains` holds exactly when the point is between the corners. -/
theorem BoundingBox.contains_iff {b : BoundingBox} {v : Vec3d} :
    b.contains v = true ↔
      (Ext.le b.min.x (.fin v.x) ∧ Ext.le (.fin v.x) b.max.x) ∧
      (Ext.le b.min.y (.fin v.y) ∧ Ext.le (.fin v.y) b.max.y) ∧
      (Ext.le b.min.z (.fin v.z) ∧ Ext.le (.fin v.z) b.max.z) := by
  simp only [contains, Bool.not_eq_true', Bool.or_eq_false_iff, decide_eq_false_iff_not,
    Ext.not_lt]
  tauto

namespace BoundingBox

theorem subsetOf_refl (b : BoundingBox) : b.subsetOf b :=
  ⟨Ext.le_refl _, Ext.le_refl _, Ext.le_refl _, Ext.le_refl _, Ext.le_refl _, Ext.le_refl _⟩

theorem subsetOf_trans {a b c : BoundingBox} (h1 : a.subsetOf b) (h2 : b.subsetOf c) :
    a.subsetOf c :=
  ⟨Ext.le_trans h2.1 h1.1, Ext.le_trans h2.2.1 h1.2.1, Ext.le_trans h2.2.2.1 h1.2.2.1,
   Ext.le_trans h1.2.2.2.1 h2.2.2.2.1, Ext.le_trans h1.2.2.2.2.1 h2.2.2.2.2.1,
   Ext.le_trans h1.2.2.2.2.2 h2.2.2.2.2.2⟩

/-- `EMPTY` is inside every box. -/
theorem EMPTY_subsetOf (b : BoundingBox) : EMPTY.subsetOf b :=
  ⟨Ext.le_top _, Ext.le_top _, Ext.le_top _, Ext.bot_le _, Ext.bot_le _, Ext.bot_le _⟩

/-- Expanding by a vector only grows a box. -/
theorem subsetOf_expandVec (b : BoundingBox) (v : Vec3d) : b.subsetOf (b.expandVec v) :=
  ⟨Ext.min_le_left .., Ext.min_le_left .., Ext.min_le_left ..,
   Ext.le_max_left .., Ext.le_max_left .., Ext.le_max_left ..⟩

/-- Expanding by a box only grows a box. -/
theorem subsetOf_expandBbox (b c : BoundingBox) : b.subsetOf (b.expandBbox c) :=
  ⟨Ext.min_le_left .., Ext.min_le_left .., Ext.min_le_left ..,
   Ext.le_max_left .., Ext.le_max_left .., Ext.le_max_left ..⟩

/-- The expanding box ends up inside the result. -/
theorem subsetOf_expandBbox_right (b c : BoundingBox) : c.subsetOf (b.expandBbox c) :=
  ⟨Ext.min_le_right .., Ext.min_le_right .., Ext.min_le_right ..,
   Ext.le_max_right .., Ext.le_max_right .., Ext.le_max_right ..⟩

/-- The expanded-in vector is contained in the result. -/
theorem contains_expandVec (b : BoundingBox) (v : Vec3d) : (b.expandVec v).contains v := by
  rw [contains_iff]
  exact ⟨⟨Ext.min_le_right .., Ext.le_max_right ..⟩, ⟨Ext.min_le_right .., Ext.le_max_right ..⟩,
    ⟨Ext.min_le_right .., Ext.le_max_right ..⟩⟩

/-- Containment is monotone under box growth. -/
theorem contains_of_subsetOf {b c : BoundingBox} {v : Vec3d} (hs : b.subsetOf c)
    (h : b.contains v = true) : c.contains v = true := by
  rw [contains_iff] at h ⊢
  exact ⟨⟨Ext.le_trans hs.1 h.1.1, Ext.le_trans h.1.2 hs.2.2.2.1⟩,
    ⟨Ext.le_trans hs.2.1 h.2.1.1, Ext.le_trans h.2.1.2 hs.2.2.2.2.1⟩,
    ⟨Ext.le_trans hs.2.2.1 h.2.2.1, Ext.le_trans h.2.2.2 hs.2.2.2.2.2⟩⟩

/-- `expand_bbox` keeps an upper bound that bounds both arguments. -/
theorem expandBbox_subsetOf {b c outer : BoundingBox} (h1 : b.subsetOf outer)
    (h2 : c.subsetOf outer) : (b.expandBbox c).subsetOf outer :=
  ⟨Ext.le_min h1.1 h2.1, Ext.le_min h1.2.1 h2.2.1, Ext.le_min h1.2.2.1 h2.2.2.1,
   Ext.max_le h1.2.2.2.1 h2.2.2.2.1, Ext.max_le h1.2.2.2.2.1 h2.2.2.2.2.1,
   Ext.max_le h1.2.2.2.2.2 h2.2.2.2.2.2⟩

/-- Folding `expand_vec` only grows the accumulator. -/
theorem subsetOf_foldl_expandVec (l : List Vec3d) (acc : BoundingBox) :
    acc.subsetOf (l.foldl expandVec acc) := by
  induction l generalizing acc with
  | nil => exact subsetOf_refl acc
  | cons v t ih => exact subsetOf_trans (subsetOf_expandVec acc v) (ih (acc.expandVec v))

/-- Every folded-in vector is contained in the fold's result. -/
theorem contains_foldl_expandVec {l : List Vec3d} {v : Vec3d} (hv : v ∈ l)
    (acc : BoundingBox) : (l.foldl expandVec acc).contains v = true := by
  induction l generalizing acc with
  | nil => cases hv
  | cons w t ih =>
    rcases List.mem_cons.mp hv with rfl | hv
    · exact contains_of_subsetOf (subsetOf_foldl_expandVec t (acc.expandVec v))
        (contains_expandVec acc v)
    · exact ih hv (acc.expandVec w)

/-- Folding `expand_bbox` only grows the accumulator. -/
theorem subsetOf_foldl_expandBbox (l : List BoundingBox) (acc : BoundingBox) :
    acc.subsetOf (l.foldl expandBbox acc) := by
  induction l generalizing acc with
  | nil => exact subsetOf_refl acc
  | cons c t ih => exact subsetOf_trans (subsetOf_expandBbox acc c) (ih (acc.expandBbox c))

/-- Every folded-in box is inside the fold's result. -/
theorem mem_subsetOf_foldl_expandBbox {l : List BoundingBox} {c : BoundingBox} (hc : c ∈ l)
    (acc : BoundingBox) : c.subsetOf (l.foldl expandBbox acc) := by
  induction l generalizing acc with
  | nil => cases hc
  | cons d t ih =>
    rcases List.mem_cons.mp hc with rfl | hc
    · exact subsetOf_trans (subsetOf_expandBbox_right acc c) (subsetOf_foldl_expandBbox t _)
    · exact ih hc (acc.expandBbox d)

/-- The fold stays below any box bounding the accumulator and all elements. -/
theorem foldl_expandBbox_subsetOf {l : List BoundingBox} {acc outer : BoundingBox}
    (hacc : acc.subsetOf outer) (h : ∀ c ∈ l, c.subsetOf outer) :
    (l.foldl expandBbox acc).subsetOf outer := by
  induction l generalizing acc with
  | nil => exact hacc
  | cons d t ih =>
    exact ih (expandBbox_subsetOf hacc (h d (List.mem_cons_self d t)))
      (fun c hc => h c (List.mem_cons_of_mem d hc))

/-- A vector's box membership survives padding by a nonnegative amount. -/
theorem subsetOf_pad (b : BoundingBox) {p : ℚ} (hp : 0 ≤ p) : b.subsetOf (b.pad p) :=
  ⟨Ext.addQ_neg_le _ hp, Ext.addQ_neg_le _ hp, Ext.addQ_neg_le _ hp,
   Ext.le_addQ _ hp, Ext.le_addQ _ hp, Ext.le_addQ _ hp⟩

theorem Ext_addQ_mono {a b : Ext} (q : ℚ) (h : Ext.le a b) :
    Ext.le (a.addQ q) (b.addQ q) := by
  cases a <;> cases b <;> simp_all [Ext.addQ, Ext.le]

/-- Padding is monotone with respect to box inclusion. -/
theorem pad_mono {b c : BoundingBox} (q : ℚ) (h : b.subsetOf c) :
    (b.pad q).subsetOf (c.pad q) :=
  ⟨Ext_addQ_mono _ h.1, Ext_addQ_mono _ h.2.1, Ext_addQ_mono _ h.2.2.1,
   Ext_addQ_mono _ h.2.2.2.1, Ext_addQ_mono _ h.2.2.2.2.1, Ext_addQ_mono _ h.2.2.2.2.2⟩

/-- `from_bboxes` is monotone with respect to list membership. -/
theorem fromBboxes_mono {l1 l2 : List BoundingBox} (h : ∀ c ∈ l1, c ∈ l2) :
    (fromBboxes l1).subsetOf (fromBboxes l2) :=
  foldl_expandBbox_subsetOf (EMPTY_subsetOf _)
    (fun c hc => mem_subsetOf_foldl_expandBbox (h c hc) EMPTY)

end BoundingBox

/-- `PolyVertex` (ids embedded as `Nat`). -/
structure PolyVertex where
  vertexId : Nat
  normalId : Nat
  uv : ℚ × ℚ
deriving DecidableEq

/-- `Polygon`. -/
structure Polygon where
  normal : Vec3d
  texture : Nat
  verts : List PolyVertex
deriving DecidableEq

/-- Index into the vertex pool.  The source indexes with `[]`, which panics
when out of range; the data model guarantees in-range vertex ids, and the
embedding totalizes the lookup with a zero default. -/
def vertAt (verts : List Vec3d) (i : Nat) : Vec3d := (verts.get? i).getD Vec3d.zero

/-- `BspNode`. -/
inductive BspNode where
  | split (bbox : BoundingBox) (front back : BspNode) : BspNode
  | leaf (bbox : BoundingBox) (poly : Polygon) : BspNode
  | empty : BspNode
deriving DecidableEq

namespace BspNode

/-- `BspNode::bbox`: the `Empty` node reports `&BoundingBox::EMPTY`. -/
def bbox : BspNode → BoundingBox
  | split b _ _ => b
  | leaf b _ => b
  | empty => BoundingBox.EMPTY

/-- Number of `Leaf` nodes in the tree. -/
def leafCount : BspNode → Nat
  | split _ f b => f.leafCount + b.leafCount
  | leaf _ _ => 1
  | empty => 0

/-- `BspNode::recalculate_bboxes`: post-order; a `Split` box becomes the
union of its updated children's boxes, a `Leaf` box becomes the unpadded
bound of its polygon's vertices. -/
def recalculateBboxes (verts : List Vec3d) : BspNode → BspNode
  | split _ front back =>
    let f := recalculateBboxes verts front
    let b := recalculateBboxes verts back
    split (f.bbox.expandBbox b.bbox) f b
  | leaf _ poly =>
    leaf (BoundingBox.fromVectors (poly.verts.map fun pv => vertAt verts pv.vertexId)) poly
  | empty => empty

end BspNode

/-- `Iterator::cycle().take(k)` over a vertex list. -/
def cycleTake (l : List Vec3d) (k : Nat) : List Vec3d :=
  if l.length = 0 then [] else (List.range k).map fun i => (l.get? (i % l.length)).getD Vec3d.zero

/-- `windows(3)` over a list. -/
def windows3 : List Vec3d → List (Vec3d × Vec3d × Vec3d)
  | a :: b :: c :: rest => (a, b, c) :: windows3 (b :: c :: rest)
  | _ => []

/-- The per-polygon face-normal derivation performed at the start of
`BspData::recalculate`: a triangle uses one edge cross product, a larger
polygon averages the cross products of consecutive edge triples around the
cycle; the result is normalized. -/
def polyNormal (verts : List Vec3d) (poly : Polygon) : Vec3d :=
  let vs := poly.verts.map fun pv => vertAt verts pv.vertexId
  let raw :=
    if poly.verts.length = 3 then
      match vs with
      | [a, b, c] => (a.sub b).cross (b.sub c)
      | _ => Vec3d.zero
    else
      Vec3d.average ((windows3 (cycleTake vs (poly.verts.length + 2))).map
        fun w => (w.1.sub w.2.1).cross (w.2.1.sub w.2.2))
  raw.normalize

/-- The per-polygon data computed by the first pass of
`BspData::recalculate`: centroid, padded bounding box, polygon with its
recomputed normal. -/
structure PolyInfo where
  center : Vec3d
  bbox : BoundingBox
  poly : Polygon
deriving DecidableEq

def polyInfos (verts : List Vec3d) (polys : List Polygon) : List PolyInfo :=
  polys.map fun poly =>
    let vs := poly.verts.map fun pv => vertAt verts pv.vertexId
    { center := Vec3d.average vs,
      bbox := (BoundingBox.fromVectors vs).pad (1 / 100),
      poly := { poly with normal := polyNormal verts poly } }

/-- `recalc_recurse` inside `BspData::recalculate`: one polygon yields a
leaf; otherwise sort by centroid on the axis of greatest extent of the
padded union box and split at the midpoint.  (The source is never invoked
on an empty slice; the `[]` case is unreachable.) -/
def recalcRecurse : List PolyInfo → BspNode
  | [] => BspNode.empty
  | [info] => BspNode.leaf info.bbox info.poly
  | a :: b :: rest =>
    let bbox := (BoundingBox.fromBboxes ((a :: b :: rest).map PolyInfo.bbox)).pad (1 / 100)
    let axis := bbox.greatestDimension
    let sorted := (a :: b :: rest).insertionSort
      fun p q => p.center.get axis ≤ q.center.get axis
    let half := sorted.length / 2
    BspNode.split bbox (recalcRecurse (sorted.take half)) (recalcRecurse (sorted.drop half))
termination_by l => l.length
decreasing_by
  all_goals simp only [List.length_take, List.length_drop,
    List.length_insertionSort, List.length_cons]
  all_goals omega

/-- `BspData::recalculate`. -/
def BspData.recalculate (verts : List Vec3d) (polys : List Polygon) : BspNode :=
  let infos := polyInfos verts polys
  if infos.isEmpty then BspNode.empty else recalcRecurse infos

/-- `ShieldPolygon` (vertex and neighbor ids embedded as `Nat`). -/
structure ShieldPolygon where
  normal : Vec3d
  verts : Nat × Nat × Nat
  neighbors : Nat × Nat × Nat
deriving DecidableEq

def shieldPolyAt (polys : List ShieldPolygon) (i : Nat) : ShieldPolygon :=
  (polys.get? i).getD ⟨Vec3d.zero, (0, 0, 0), (0, 0, 0)⟩

/-- `ShieldNode`. -/
inductive ShieldNode where
  | split (bbox : BoundingBox) (front back : ShieldNode) : ShieldNode
  | leaf (bbox : BoundingBox) (polyList : List Nat) : ShieldNode
deriving DecidableEq

namespace ShieldNode

def bbox : ShieldNode → BoundingBox
  | split b _ _ => b
  | leaf b _ => b

def leafCount : ShieldNode → Nat
  | split _ f b => f.leafCount + b.leafCount
  | leaf _ _ => 1

end ShieldNode

/-- `ShieldPolyInfo` inside `ShieldData::recalculate_tree`. -/
structure ShieldPolyInfo where
  id : Nat
  bbox : BoundingBox
  center : Vec3d
deriving DecidableEq

def shieldPolyInfos (verts : List Vec3d) (polys : List ShieldPolygon) : List ShieldPolyInfo :=
  polys.enum.map fun ip =>
    let vs := [vertAt verts ip.2.verts.1, vertAt verts ip.2.verts.2.1,
      vertAt verts ip.2.verts.2.2]
    { id := ip.1, bbox := (BoundingBox.fromVectors vs).pad (1 / 100),
      center := Vec3d.average vs }

/-- `recalc_recurse` inside `ShieldData::recalculate_tree`. -/
def shieldRecalcRecurse : List ShieldPolyInfo → ShieldNode
  | [] => ShieldNode.leaf BoundingBox.ZERO []
  | [info] => ShieldNode.leaf info.bbox [info.id]
  | a :: b :: rest =>
    let bbox := (BoundingBox.fromBboxes ((a :: b :: rest).map ShieldPolyInfo.bbox)).pad (1 / 100)
    let axis := bbox.greatestDimension
    let sorted := (a :: b :: rest).insertionSort
      fun p q => p.center.get axis ≤ q.center.get axis
    let half := sorted.length / 2
    ShieldNode.split bbox (shieldRecalcRecurse (sorted.take half))
      (shieldRecalcRecurse (sorted.drop half))
termination_by l => l.length
decreasing_by
  all_goals simp only [List.length_take, List.length_drop,
    List.length_insertionSort, List.length_cons]
  all_goals omega

/-- `ShieldData::recalculate_tree`: an empty input yields one `Leaf` with no
polygons and the default (all-zero) box. -/
def ShieldData.recalculateTree (verts : List Vec3d) (polys : List ShieldPolygon) : ShieldNode :=
  let infos := shieldPolyInfos verts polys
  if infos.isEmpty then ShieldNode.leaf BoundingBox.ZERO [] else shieldRecalcRecurse infos

/-- The leaf-box accumulation in `ShieldData::recalculate_bboxes`: reset to
`EMPTY`, then expand by the three vertices of every listed polygon. -/
def shieldLeafBbox (verts : List Vec3d) (polys : List ShieldPolygon) (polyList : List Nat) :
    BoundingBox :=
  polyList.foldl
    (fun acc i =>
      let p := shieldPolyAt polys i
      ((acc.expandVec (vertAt verts p.verts.1)).expandVec
        (vertAt verts p.verts.2.1)).expandVec (vertAt verts p.verts.2.2))
    BoundingBox.EMPTY

/-- `recalculate_bboxes_recurse` inside `ShieldData::recalculate_bboxes`:
a `Split` box is reset to `EMPTY` and expanded by both updated children's
boxes; a `Leaf` box is reset and expanded by its polygons' vertices. -/
def ShieldNode.recalculateBboxes (verts : List Vec3d) (polys : List ShieldPolygon) :
    ShieldNode → ShieldNode
  | ShieldNode.split _ front back =>
    let f := ShieldNode.recalculateBboxes verts polys front
    let b := ShieldNode.recalculateBboxes verts polys back
    ShieldNode.split ((BoundingBox.EMPTY.expandBbox f.bbox).expandBbox b.bbox) f b
  | ShieldNode.leaf _ polyList =>
    ShieldNode.leaf (shieldLeafBbox verts polys polyList) polyList

theorem bspRecalcBboxes_idem (verts : List Vec3d) (t : BspNode) :
    BspNode.recalculateBboxes verts (BspNode.recalculateBboxes verts t) =
      BspNode.recalculateBboxes verts t := by
  induction t with
  | split b f k ihf ihk => simp [BspNode.recalculateBboxes, ihf, ihk]
  | leaf b poly => simp [BspNode.recalculateBboxes]
  | empty => simp [BspNode.recalculateBboxes]

theorem shieldRecalcBboxes_idem (verts : List Vec3d) (polys : List ShieldPolygon)
    (s : ShieldNode) :
    ShieldNode.recalculateBboxes verts polys (ShieldNode.recalculateBboxes verts polys s) =
      ShieldNode.recalculateBboxes verts polys s := by
  induction s with
  | split b f k ihf ihk => simp [ShieldNode.recalculateBboxes, ihf, ihk]
  | leaf b polyList => simp [ShieldNode.recalculateBboxes]

theorem recalcRecurse_leafCount :
    ∀ n (l : List PolyInfo), l.length ≤ n → l ≠ [] →
      (recalcRecurse l).leafCount = l.length := by
  intro n
  induction n with
  | zero =>
    intro l hl hne
    exact absurd (List.eq_nil_of_length_eq_zero (Nat.le_zero.mp hl)) hne
  | succ n ih =>
    intro l hl hne
    match l with
    | [info] => simp [recalcRecurse, BspNode.leafCount]
    | a :: b :: rest =>
      have hkey : ∀ s : List PolyInfo, s.length = rest.length + 2 →
          (recalcRecurse (s.take (s.length / 2))).leafCount +
            (recalcRecurse (s.drop (s.length / 2))).leafCount = rest.length + 2 := by
        intro s hs
        have h1 : (s.take (s.length / 2)).length = s.length / 2 := by
          rw [List.length_take]; omega
        have h2 : (s.drop (s.length / 2)).length = s.length - s.length / 2 :=
          List.length_drop ..
        have hln : rest.length + 2 ≤ n + 1 := by simpa using hl
        rw [ih (s.take (s.length / 2)) (by omega) (by rw [← List.length_pos]; omega),
          ih (s.drop (s.length / 2)) (by omega) (by rw [← List.length_pos]; omega)]
        omega
      rw [recalcRecurse]
      simp only [BspNode.leafCount]
      refine (hkey _ ?_).trans ?_
      · rw [List.length_insertionSort]; rfl
      · simp

theorem shieldRecalcRecurse_leafCount :
    ∀ n (l : List ShieldPolyInfo), l.length ≤ n → l ≠ [] →
      (shieldRecalcRecurse l).leafCount = l.length := by
  intro n
  induction n with
  | zero =>
    intro l hl hne
    exact absurd (List.eq_nil_of_length_eq_zero (Nat.le_zero.mp hl)) hne
  | succ n ih =>
    intro l hl hne
    match l with
    | [info] => simp [shieldRecalcRecurse, ShieldNode.leafCount]
    | a :: b :: rest =>
      have hkey : ∀ s : List ShieldPolyInfo, s.length = rest.length + 2 →
          (shieldRecalcRecurse (s.take (s.length / 2))).leafCount +
            (shieldRecalcRecurse (s.drop (s.length / 2))).leafCount = rest.length + 2 := by
        intro s hs
        have h1 : (s.take (s.length / 2)).length = s.length / 2 := by
          rw [List.length_take]; omega
        have h2 : (s.drop (s.length / 2)).length = s.length - s.length / 2 :=
          List.length_drop ..
        have hln : rest.length + 2 ≤ n + 1 := by simpa using hl
        rw [ih (s.take (s.length / 2)) (by omega) (by rw [← List.length_pos]; omega),
          ih (s.drop (s.length / 2)) (by omega) (by rw [← List.length_pos]; omega)]
        omega
      rw [shieldRecalcRecurse]
      simp only [ShieldNode.leafCount]
      refine (hkey _ ?_).trans ?_
      · rw [List.length_insertionSort]; rfl
      · simp

/-- The bbox-tightness invariant on a render tree: every `Split` box bounds
both children's boxes, every `Leaf` box bounds all vertices referenced by
its polygon. -/
def BspNode.bboxesTight (verts : List Vec3d) : BspNode → Prop
  | BspNode.split b f k =>
    f.bbox.subsetOf b ∧ k.bbox.subsetOf b ∧ f.bboxesTight verts ∧ k.bboxesTight verts
  | BspNode.leaf b poly => ∀ pv ∈ poly.verts, b.contains (vertAt verts pv.vertexId) = true
  | BspNode.empty => True

/-- The bbox-tightness invariant on a shield tree. -/
def ShieldNode.bboxesTight (verts : List Vec3d) (polys : List ShieldPolygon) :
    ShieldNode → Prop
  | ShieldNode.split b f k =>
    f.bbox.subsetOf b ∧ k.bbox.subsetOf b ∧ f.bboxesTight verts polys ∧
      k.bboxesTight verts polys
  | ShieldNode.leaf b polyList => ∀ j ∈ polyList,
    b.contains (vertAt verts (shieldPolyAt polys j).verts.1) = true ∧
    b.contains (vertAt verts (shieldPolyAt polys j).verts.2.1) = true ∧
    b.contains (vertAt verts (shieldPolyAt polys j).verts.2.2) = true

/-- Each polygon info built by the first pass of `BspData::recalculate` has a
box containing all its referenced vertices. -/
theorem polyInfos_valid (verts : List Vec3d) (polys : List Polygon) :
    ∀ i ∈ polyInfos verts polys, ∀ pv ∈ i.poly.verts,
      i.bbox.contains (vertAt verts pv.vertexId) = true := by
  intro i hi pv hpv
  rcases List.mem_map.mp hi with ⟨poly, hpoly, rfl⟩
  simp only at hpv ⊢
  refine BoundingBox.contains_of_subsetOf (BoundingBox.subsetOf_pad _ (by norm_num)) ?_
  exact BoundingBox.contains_foldl_expandVec (List.mem_map_of_mem _ hpv) _

theorem recalcRecurse_tight (verts : List Vec3d) :
    ∀ n (l : List PolyInfo), l.length ≤ n →
      (∀ i ∈ l, ∀ pv ∈ i.poly.verts, i.bbox.contains (vertAt verts pv.vertexId) = true) →
      (recalcRecurse l).bboxesTight verts ∧
        (recalcRecurse l).bbox.subsetOf
          ((BoundingBox.fromBboxes (l.map PolyInfo.bbox)).pad (1 / 100)) := by
  intro n
  induction n with
  | zero =>
    intro l hl _
    have h0 : l = [] := List.eq_nil_of_length_eq_zero (Nat.le_zero.mp hl)
    subst h0
    simp only [recalcRecurse, BspNode.bboxesTight, BspNode.bbox]
    exact ⟨trivial, BoundingBox.EMPTY_subsetOf _⟩
  | succ n ih =>
    intro l hl hval
    match l with
    | [] =>
      simp only [recalcRecurse, BspNode.bboxesTight, BspNode.bbox]
      exact ⟨trivial, BoundingBox.EMPTY_subsetOf _⟩
    | [info] =>
      simp only [recalcRecurse, BspNode.bboxesTight, BspNode.bbox]
      constructor
      · exact hval info (by simp)
      · refine BoundingBox.subsetOf_trans ?_ (BoundingBox.subsetOf_pad _ (by norm_num))
        exact BoundingBox.mem_subsetOf_foldl_expandBbox (by simp) _
    | a :: b :: rest =>
      simp only [recalcRecurse]
      set U := (BoundingBox.fromBboxes ((a :: b :: rest).map PolyInfo.bbox)).pad (1 / 100)
        with hU
      have hsub : ∀ s : List PolyInfo, s.length = rest.length + 2 →
          (∀ i ∈ s, i ∈ a :: b :: rest) →
          ((recalcRecurse (s.take (s.length / 2))).bboxesTight verts ∧
            (recalcRecurse (s.take (s.length / 2))).bbox.subsetOf U) ∧
          ((recalcRecurse (s.drop (s.length / 2))).bboxesTight verts ∧
            (recalcRecurse (s.drop (s.length / 2))).bbox.subsetOf U) := by
        intro s hs hmem
        have hln : rest.length + 2 ≤ n + 1 := by simpa using hl
        have htake := ih (s.take (s.length / 2)) (by rw [List.length_take]; omega)
          (fun i hi pv hpv => hval i (hmem i (List.take_subset _ _ hi)) pv hpv)
        have hdrop := ih (s.drop (s.length / 2)) (by rw [List.length_drop]; omega)
          (fun i hi pv hpv => hval i (hmem i (List.drop_subset _ _ hi)) pv hpv)
        have hmono : ∀ t : List PolyInfo, (∀ i ∈ t, i ∈ a :: b :: rest) →
            ((BoundingBox.fromBboxes (t.map PolyInfo.bbox)).pad (1 / 100)).subsetOf U := by
          intro t ht
          rw [hU]
          refine BoundingBox.pad_mono _ (BoundingBox.fromBboxes_mono ?_)
          intro c hc
          rcases List.mem_map.mp hc with ⟨i, hi, rfl⟩
          exact List.mem_map_of_mem _ (ht i hi)
        exact ⟨⟨htake.1, BoundingBox.subsetOf_trans htake.2
            (hmono _ (fun i hi => hmem i (List.take_subset _ _ hi)))⟩,
          ⟨hdrop.1, BoundingBox.subsetOf_trans hdrop.2
            (hmono _ (fun i hi => hmem i (List.drop_subset _ _ hi)))⟩⟩
      have hss := hsub ((a :: b :: rest).insertionSort
          (fun p q => p.center.get U.greatestDimension ≤ q.center.get U.greatestDimension))
        (by rw [List.length_insertionSort]; rfl)
        (fun i hi => (List.mem_insertionSort _).mp hi)
      simp only [BspNode.bboxesTight, BspNode.bbox]
      exact ⟨⟨hss.1.2, hss.2.2, hss.1.1, hss.2.1⟩, BoundingBox.subsetOf_refl U⟩

/-- Each shield polygon info has a box containing the three vertices of the
polygon it indexes. -/
theorem shieldPolyInfos_valid (verts : List Vec3d) (polys : List ShieldPolygon) :
    ∀ i ∈ shieldPolyInfos verts polys,
      i.bbox.contains (vertAt verts (shieldPolyAt polys i.id).verts.1) = true ∧
      i.bbox.contains (vertAt verts (shieldPolyAt polys i.id).verts.2.1) = true ∧
      i.bbox.contains (vertAt verts (shieldPolyAt polys i.id).verts.2.2) = true := by
  intro i hi
  rcases List.mem_map.mp hi with ⟨ip, hip, rfl⟩
  have hget : polys.get? ip.1 = some ip.2 := by
    simpa using List.mem_enum_iff_getElem?.mp hip
  simp only [shieldPolyAt, hget, Option.getD_some]
  refine ⟨?_, ?_, ?_⟩ <;>
    refine BoundingBox.contains_of_subsetOf (BoundingBox.subsetOf_pad _ (by norm_num))
      (BoundingBox.contains_foldl_expandVec (by simp) _)

theorem shieldRecalcRecurse_tight (verts : List Vec3d) (polys : List ShieldPolygon) :
    ∀ n (l : List ShieldPolyInfo), l.length ≤ n → l ≠ [] →
      (∀ i ∈ l,
        i.bbox.contains (vertAt verts (shieldPolyAt polys i.id).verts.1) = true ∧
        i.bbox.contains (vertAt verts (shieldPolyAt polys i.id).verts.2.1) = true ∧
        i.bbox.contains (vertAt verts (shieldPolyAt polys i.id).verts.2.2) = true) →
      (shieldRecalcRecurse l).bboxesTight verts polys ∧
        (shieldRecalcRecurse l).bbox.subsetOf
          ((BoundingBox.fromBboxes (l.map ShieldPolyInfo.bbox)).pad (1 / 100)) := by
  intro n
  induction n with
  | zero =>
    intro l hl hne _
    exact absurd (List.eq_nil_of_length_eq_zero (Nat.le_zero.mp hl)) hne
  | succ n ih =>
    intro l hl hne hval
    match l with
    | [info] =>
      simp only [shieldRecalcRecurse, ShieldNode.bboxesTight, ShieldNode.bbox]
      constructor
      · intro j hj
        rcases List.mem_singleton.mp hj with rfl
        exact hval info (by simp)
      · refine BoundingBox.subsetOf_trans ?_ (BoundingBox.subsetOf_pad _ (by norm_num))
        exact BoundingBox.mem_subsetOf_foldl_expandBbox (by simp) _
    | a :: b :: rest =>
      simp only [shieldRecalcRecurse]
      set U := (BoundingBox.fromBboxes ((a :: b :: rest).map ShieldPolyInfo.bbox)).pad (1 / 100)
        with hU
      have hsub : ∀ s : List ShieldPolyInfo, s.length = rest.length + 2 →
          (∀ i ∈ s, i ∈ a :: b :: rest) →
          ((shieldRecalcRecurse (s.take (s.length / 2))).bboxesTight verts polys ∧
            (shieldRecalcRecurse (s.take (s.length / 2))).bbox.subsetOf U) ∧
          ((shieldRecalcRecurse (s.drop (s.length / 2))).bboxesTight verts polys ∧
            (shieldRecalcRecurse (s.drop (s.length / 2))).bbox.subsetOf U) := by
        intro s hs hmem
        have hln : rest.length + 2 ≤ n + 1 := by simpa using hl
        have htake := ih (s.take (s.length / 2)) (by rw [List.length_take]; omega)
          (by rw [← List.length_pos, List.length_take]; omega)
          (fun i hi => hval i (hmem i (List.take_subset _ _ hi)))
        have hdrop := ih (s.drop (s.length / 2)) (by rw [List.length_drop]; omega)
          (by rw [← List.length_pos, List.length_drop]; omega)
          (fun i hi => hval i (hmem i (List.drop_subset _ _ hi)))
        have hmono : ∀ t : List ShieldPolyInfo, (∀ i ∈ t, i ∈ a :: b :: rest) →
            ((BoundingBox.fromBboxes (t.map ShieldPolyInfo.bbox)).pad (1 / 100)).subsetOf U := by
          intro t ht
          rw [hU]
          refine BoundingBox.pad_mono _ (BoundingBox.fromBboxes_mono ?_)
          intro c hc
          rcases List.mem_map.mp hc with ⟨i, hi, rfl⟩
          exact List.mem_map_of_mem _ (ht i hi)
        exact ⟨⟨htake.1, BoundingBox.subsetOf_trans htake.2
            (hmono _ (fun i hi => hmem i (List.take_subset _ _ hi)))⟩,
          ⟨hdrop.1, BoundingBox.subsetOf_trans hdrop.2
            (hmono _ (fun i hi => hmem i (List.drop_subset _ _ hi)))⟩⟩
      have hss := hsub ((a :: b :: rest).insertionSort
          (fun p q => p.center.get U.greatestDimension ≤ q.center.get U.greatestDimension))
        (by rw [List.length_insertionSort]; rfl)
        (fun i hi => (List.mem_insertionSort _).mp hi)
      simp only [ShieldNode.bboxesTight, ShieldNode.bbox]
      exact ⟨⟨hss.1.2, hss.2.2, hss.1.1, hss.2.1⟩, BoundingBox.subsetOf_refl U⟩

/-- One step of the leaf-box accumulation of `ShieldData::recalculate_bboxes`. -/
def shieldLeafStep (verts : List Vec3d) (polys : List ShieldPolygon) (acc : BoundingBox)
    (i : Nat) : BoundingBox :=
  ((acc.expandVec (vertAt verts (shieldPolyAt polys i).verts.1)).expandVec
    (vertAt verts (shieldPolyAt polys i).verts.2.1)).expandVec
    (vertAt verts (shieldPolyAt polys i).verts.2.2)

theorem shieldLeafBbox_eq_foldl (verts : List Vec3d) (polys : List ShieldPolygon)
    (polyList : List Nat) :
    shieldLeafBbox verts polys polyList =
      polyList.foldl (shieldLeafStep verts polys) BoundingBox.EMPTY := rfl

theorem subsetOf_shieldLeafStep (verts : List Vec3d) (polys : List ShieldPolygon)
    (acc : BoundingBox) (i : Nat) : acc.subsetOf (shieldLeafStep verts polys acc i) :=
  BoundingBox.subsetOf_trans (BoundingBox.subsetOf_expandVec _ _)
    (BoundingBox.subsetOf_trans (BoundingBox.subsetOf_expandVec _ _)
      (BoundingBox.subsetOf_expandVec _ _))

theorem subsetOf_foldl_shieldLeafStep (verts : List Vec3d) (polys : List ShieldPolygon)
    (l : List Nat) (acc : BoundingBox) :
    acc.subsetOf (l.foldl (shieldLeafStep verts polys) acc) := by
  induction l generalizing acc with
  | nil => exact BoundingBox.subsetOf_refl acc
  | cons j t ih =>
    exact BoundingBox.subsetOf_trans (subsetOf_shieldLeafStep verts polys acc j) (ih _)

theorem shieldLeafStep_contains (verts : List Vec3d) (polys : List ShieldPolygon)
    (acc : BoundingBox) (i : Nat) :
    (shieldLeafStep verts polys acc i).contains (vertAt verts (shieldPolyAt polys i).verts.1)
        = true ∧
    (shieldLeafStep verts polys acc i).contains (vertAt verts (shieldPolyAt polys i).verts.2.1)
        = true ∧
    (shieldLeafStep verts polys acc i).contains (vertAt verts (shieldPolyAt polys i).verts.2.2)
        = true := by
  refine ⟨?_, ?_, ?_⟩
  · exact BoundingBox.contains_of_subsetOf
      (BoundingBox.subsetOf_trans (BoundingBox.subsetOf_expandVec _ _)
        (BoundingBox.subsetOf_expandVec _ _))
      (BoundingBox.contains_expandVec _ _)
  · exact BoundingBox.contains_of_subsetOf (BoundingBox.subsetOf_expandVec _ _)
      (BoundingBox.contains_expandVec _ _)
  · exact BoundingBox.contains_expandVec _ _

theorem foldl_shieldLeafStep_contains (verts : List Vec3d) (polys : List ShieldPolygon)
    {l : List Nat} {j : Nat} (hj : j ∈ l) (acc : BoundingBox) :
    (l.foldl (shieldLeafStep verts polys) acc).contains
        (vertAt verts (shieldPolyAt polys j).verts.1) = true ∧
    (l.foldl (shieldLeafStep verts polys) acc).contains
        (vertAt verts (shieldPolyAt polys j).verts.2.1) = true ∧
    (l.foldl (shieldLeafStep verts polys) acc).contains
        (vertAt verts (shieldPolyAt polys j).verts.2.2) = true := by
  induction l generalizing acc with
  | nil => cases hj
  | cons i t ih =>
    rcases List.mem_cons.mp hj with rfl | hj
    · have hgrow := subsetOf_foldl_shieldLeafStep verts polys t (shieldLeafStep verts polys acc j)
      have hc := shieldLeafStep_contains verts polys acc j
      exact ⟨BoundingBox.contains_of_subsetOf hgrow hc.1,
        BoundingBox.contains_of_subsetOf hgrow hc.2.1,
        BoundingBox.contains_of_subsetOf hgrow hc.2.2⟩
    · exact ih hj _

/-- `BspNode::recalculate_bboxes` restores the tightness invariant. -/
theorem recalculateBboxes_tight (verts : List Vec3d) (t : BspNode) :
    (BspNode.recalculateBboxes verts t).bboxesTight verts := by
  induction t with
  | split b f k ihf ihk =>
    simp only [BspNode.recalculateBboxes, BspNode.bboxesTight, BspNode.bbox]
    exact ⟨BoundingBox.subsetOf_expandBbox _ _, BoundingBox.subsetOf_expandBbox_right _ _,
      ihf, ihk⟩
  | leaf b poly =>
    simp only [BspNode.recalculateBboxes, BspNode.bboxesTight]
    intro pv hpv
    exact BoundingBox.contains_foldl_expandVec (List.mem_map_of_mem _ hpv) _
  | empty => simp only [BspNode.recalculateBboxes, BspNode.bboxesTight]

/-- `ShieldData::recalculate_bboxes` restores the tightness invariant. -/
theorem shieldRecalculateBboxes_tight (verts : List Vec3d) (polys : List ShieldPolygon)
    (s : ShieldNode) :
    (ShieldNode.recalculateBboxes verts polys s).bboxesTight verts polys := by
  induction s with
  | split b f k ihf ihk =>
    simp only [ShieldNode.recalculateBboxes, ShieldNode.bboxesTight, ShieldNode.bbox]
    refine ⟨?_, BoundingBox.subsetOf_expandBbox_right _ _, ihf, ihk⟩
    exact BoundingBox.subsetOf_trans (BoundingBox.subsetOf_expandBbox_right _ _)
      (BoundingBox.subsetOf_expandBbox _ _)
  | leaf b polyList =>
    simp only [ShieldNode.recalculateBboxes, ShieldNode.bboxesTight]
    intro j hj
    rw [shieldLeafBbox_eq_foldl]
    exact foldl_shieldLeafStep_contains verts polys hj _

/-- Claim C4: every tree produced by construction (`BspData::recalculate`,
`ShieldData::recalculate_tree`) or updated by bbox recomputation
(`BspNode::recalculate_bboxes`, `ShieldData::recalculate_bboxes`) satisfies
the bbox invariant: every `Split` node's bbox contains the bboxes of both
its children, and every `Leaf` node's bbox contains all vertices referenced
by its polygon(s), for any input polygon count (0, 1, many). -/
theorem tree_bboxes_tight :
    (∀ verts polys, (BspData.recalculate verts polys).bboxesTight verts) ∧
    (∀ verts t, (BspNode.recalculateBboxes verts t).bboxesTight verts) ∧
    (∀ verts polys, (ShieldData.recalculateTree verts polys).bboxesTight verts polys) ∧
    (∀ verts polys s,
      (ShieldNode.recalculateBboxes verts polys s).bboxesTight verts polys) := by
  refine ⟨?_, recalculateBboxes_tight, ?_, shieldRecalculateBboxes_tight⟩
  · intro verts polys
    simp only [BspData.recalculate]
    split
    · simp [BspNode.bboxesTight]
    · exact (recalcRecurse_tight verts (polyInfos verts polys).length _ le_rfl
        (polyInfos_valid verts polys)).1
  · intro verts polys
    simp only [ShieldData.recalculateTree]
    split
    · simp only [ShieldNode.bboxesTight]
      intro j hj
      exact absurd hj (List.not_mem_nil j)
    · rename_i hne
      refine (shieldRecalcRecurse_tight verts polys (shieldPolyInfos verts polys).length _
        le_rfl ?_ (shieldPolyInfos_valid verts polys)).1
      simpa [List.isEmpty_iff] using hne

/-- Claim C5: tree construction conserves leaves — one leaf per input
primitive on non-empty input; an empty input gives the `Empty` render tree
and the single-`Leaf`, zero-box shield tree (zero leaf polygons). -/
theorem leaf_count_conservation :
    (∀ verts polys, polys ≠ [] →
      (BspData.recalculate verts polys).leafCount = polys.length) ∧
    (∀ verts, BspData.recalculate verts [] = BspNode.empty) ∧
    (∀ verts polys, polys ≠ [] →
      (ShieldData.recalculateTree verts polys).leafCount = polys.length) ∧
    (∀ verts, ShieldData.recalculateTree verts [] = ShieldNode.leaf BoundingBox.ZERO []) := by
  refine ⟨?_, ?_, ?_, ?_⟩
  · intro verts polys hne
    have hlen : (polyInfos verts polys).length = polys.length := List.length_map ..
    simp only [BspData.recalculate]
    have hie : (polyInfos verts polys).isEmpty = false := by
      simp [List.isEmpty_iff, polyInfos, hne]
    rw [if_neg (by simp [hie])]
    rw [recalcRecurse_leafCount (polyInfos verts polys).length _ le_rfl
      (by simp [List.isEmpty_iff] at hie; exact hie)]
    exact hlen
  · intro verts
    simp [BspData.recalculate, polyInfos]
  · intro verts polys hne
    have hlen : (shieldPolyInfos verts polys).length = polys.length := by
      simp [shieldPolyInfos]
    simp only [ShieldData.recalculateTree]
    have hie : (shieldPolyInfos verts polys).isEmpty = false := by
      simp [List.isEmpty_iff, shieldPolyInfos, hne]
    rw [if_neg (by simp [hie])]
    rw [shieldRecalcRecurse_leafCount (shieldPolyInfos verts polys).length _ le_rfl
      (by simp [List.isEmpty_iff] at hie; exact hie)]
    exact hlen
  · intro verts
    simp [ShieldData.recalculateTree, shieldPolyInfos]

/-- Concrete inputs for the leaf-count witness: one triangle. -/
def witVerts : List Vec3d := [⟨0, 0, 0⟩, ⟨1, 0, 0⟩, ⟨0, 1, 0⟩]

def witPolys : List Polygon :=
  [{ normal := Vec3d.zero, texture := 0,
     verts := [⟨0, 0, (0, 0)⟩, ⟨1, 0, (0, 0)⟩, ⟨2, 0, (0, 0)⟩] }]

def witSPolys : List ShieldPolygon :=
  [{ normal := Vec3d.zero, verts := (0, 1, 2), neighbors := (0, 0, 0) }]

theorem leaf_count_conservation_witness :
    (BspData.recalculate witVerts witPolys).leafCount = 1 ∧
    (ShieldData.recalculateTree witVerts witSPolys).leafCount = 1 := by
  constructor
  · exact (leaf_count_conservation.1 witVerts witPolys (by decide)).trans (by rfl)
  · exact (leaf_count_conservation.2.2.1 witVerts witSPolys (by decide)).trans (by rfl)

/-- Claim C9: bbox-only recomputation is idempotent — running
`BspNode::recalculate_bboxes` or `ShieldData::recalculate_bboxes` twice on
unchanged vertices and topology gives exactly the boxes of a single run. -/
theorem recalculate_bboxes_idempotent :
    (∀ verts t, BspNode.recalculateBboxes verts (BspNode.recalculateBboxes verts t) =
      BspNode.recalculateBboxes verts t) ∧
    (∀ verts polys s, ShieldNode.recalculateBboxes verts polys
        (ShieldNode.recalculateBboxes verts polys s) =
      ShieldNode.recalculateBboxes verts polys s) :=
  ⟨bspRecalcBboxes_idem, shieldRecalcBboxes_idem⟩

/-! ## Versioned binary codec

The writer is embedded at the byte level.  An `f32` is represented by its
32-bit pattern (a `Nat` below `2^32`); `write_to` for an `f32`/`u32` emits
its four little-endian bytes.  The thread-local `VERSION` register that
`get_version()` reads during a write session is embedded as an explicit
`Version` argument to each writer. -/

/-- The four little-endian bytes of a 32-bit value. -/
def bytesOfU32 (n : Nat) : List Nat :=
  [n % 256, n / 256 % 256, n / 65536 % 256, n / 16777216 % 256]

/-- `Version`: the historical format revisions, in declaration order.  The
derived Rust `PartialOrd`/`Ord` compare by declaration order, which agrees
with the numeric codes. -/
inductive Version where
  | V19_00 | V19_03 | V20_00 | V20_02 | V20_03 | V20_04 | V20_07 | V20_09 | V20_14
  | V20_16 | V21_16 | V21_17 | V21_18 | V22_00 | V22_01 | V23_00 | V23_01
deriving DecidableEq

/-- The numeric code of each version (the enum discriminant). -/
def Version.num : Version → Nat
  | V19_00 => 1900
  | V19_03 => 1903
  | V20_00 => 2000
  | V20_02 => 2002
  | V20_03 => 2003
  | V20_04 => 2004
  | V20_07 => 2007
  | V20_09 => 2009
  | V20_14 => 2014
  | V20_16 => 2016
  | V21_16 => 2116
  | V21_17 => 2117
  | V21_18 => 2118
  | V22_00 => 2200
  | V22_01 => 2201
  | V23_00 => 2300
  | V23_01 => 2301

/-- A `Vec3d` at the serialization level: three `f32` bit patterns. -/
structure Vec3dBits where
  x : Nat
  y : Nat
  z : Nat
deriving DecidableEq

/-- `Vec3d::write_to`: x, y, z as little-endian `f32`s. -/
def writeVec3d (v : Vec3dBits) : List Nat :=
  bytesOfU32 v.x ++ bytesOfU32 v.y ++ bytesOfU32 v.z

/-- The bit pattern of `f32::INFINITY`. -/
def infBits : Nat := 2139095040

/-- The bit pattern of `f32::NEG_INFINITY`. -/
def negInfBits : Nat := 4286578688

/-- `BoundingBox` at the serialization level. -/
structure BoundingBoxBits where
  min : Vec3dBits
  max : Vec3dBits
deriving DecidableEq

namespace BoundingBoxBits

/-- `BoundingBox::ZERO`. -/
def ZERO : BoundingBoxBits := ⟨⟨0, 0, 0⟩, ⟨0, 0, 0⟩⟩

/-- `BoundingBox::EMPTY` (`min = +∞`, `max = -∞`). -/
def EMPTY : BoundingBoxBits := ⟨⟨infBits, infBits, infBits⟩, ⟨negInfBits, negInfBits, negInfBits⟩⟩

/-- `BoundingBox::sanitize`: replace `EMPTY` by `ZERO`.  The comparison is
`Vec3d`'s `PartialEq`, which compares `f32` bit patterns (`to_bits`), so
bit-level equality is the faithful embedding. -/
def sanitize (b : BoundingBoxBits) : BoundingBoxBits := if b = EMPTY then ZERO else b

/-- `impl Serialize for BoundingBox`: sanitize, then write min and max. -/
def writeTo (b : BoundingBoxBits) : List Nat :=
  writeVec3d b.sanitize.min ++ writeVec3d b.sanitize.max

end BoundingBoxBits

/-- `WeaponHardpoint` at the serialization level. -/
structure WeaponHardpoint where
  position : Vec3dBits
  normal : Vec3dBits
  offset : Nat
deriving DecidableEq

/-- `WeaponHardpoint::write_to`: position, normal, then the offset only when
`version >= V21_18 && version != V22_00`. -/
def WeaponHardpoint.writeTo (version : Version) (h : WeaponHardpoint) : List Nat :=
  writeVec3d h.position ++ writeVec3d h.normal ++
    (if Version.V21_18.num ≤ version.num ∧ version ≠ Version.V22_00 then bytesOfU32 h.offset
     else [])

/-- The spec's stated gate for the weapon-hardpoint offset field:
present exactly when `version ≥ 21.18` and `version ≠ 22.00`. -/
def offsetPresent (v : Version) : Prop :=
  Version.V21_18.num ≤ v.num ∧ v ≠ Version.V22_00

instance (v : Version) : Decidable (offsetPresent v) :=
  inferInstanceAs (Decidable (_ ∧ _))

/-- A concrete hardpoint with a non-zero offset (`1.5f32` = bits
`1069547520`); the normal is `+z` (`1.0f32` = bits `1065353216`). -/
def witHardpoint : WeaponHardpoint := ⟨⟨0, 0, 0⟩, ⟨0, 0, 1065353216⟩, 1069547520⟩

/-- Claim C1, counterexample: at version 21.17 the writer OMITS the offset
bytes of a non-zero offset (the gate `version ≥ 21.18` already fails), so
the claim's concrete case "21.17 includes the offset bytes" is false. -/
theorem weaponHardpoint_v2117_omits_offset :
    WeaponHardpoint.writeTo Version.V21_17 witHardpoint =
      writeVec3d witHardpoint.position ++ writeVec3d witHardpoint.normal ∧
    WeaponHardpoint.writeTo Version.V21_17 witHardpoint ≠
      writeVec3d witHardpoint.position ++ writeVec3d witHardpoint.normal ++
        bytesOfU32 witHardpoint.offset := by
  decide

/-- Claim C1 (amended): serializing a weapon hardpoint emits the offset
field's bytes exactly when `version ≥ 21.18` and `version ≠ 22.00`; in the
concrete cases, versions 21.17 and 22.00 omit the bytes while 21.18 and
22.01 include them. -/
theorem weaponHardpoint_offset_gating :
    ∀ (v : Version) (h : WeaponHardpoint),
      (offsetPresent v → WeaponHardpoint.writeTo v h =
        writeVec3d h.position ++ writeVec3d h.normal ++ bytesOfU32 h.offset) ∧
      (¬ offsetPresent v → WeaponHardpoint.writeTo v h =
        writeVec3d h.position ++ writeVec3d h.normal) ∧
      ¬ offsetPresent Version.V21_17 ∧ ¬ offsetPresent Version.V22_00 ∧
      offsetPresent Version.V21_18 ∧ offsetPresent Version.V22_01 := by
  intro v h
  refine ⟨?_, ?_, by decide, by decide, by decide, by decide⟩
  · intro hp
    simp only [WeaponHardpoint.writeTo, offsetPresent] at hp ⊢
    rw [if_pos hp]
  · intro hp
    simp only [WeaponHardpoint.writeTo, offsetPresent] at hp ⊢
    rw [if_neg hp, List.append_nil]

theorem weaponHardpoint_offset_gating_witness :
    WeaponHardpoint.writeTo Version.V22_01 witHardpoint =
      writeVec3d witHardpoint.position ++ writeVec3d witHardpoint.normal ++
        bytesOfU32 witHardpoint.offset ∧
    WeaponHardpoint.writeTo Version.V22_00 witHardpoint =
      writeVec3d witHardpoint.position ++ writeVec3d witHardpoint.normal :=
  ⟨(weaponHardpoint_offset_gating Version.V22_01 witHardpoint).1 (by decide),
   (weaponHardpoint_offset_gating Version.V22_00 witHardpoint).2.1 (by decide)⟩

/-- Claim C8: writing a `BoundingBox` sanitizes only the canonical empty
sentinel — `EMPTY` is written as the all-zero box, and every other box
(including other inverted boxes) is written as its min corner followed by
its max corner unchanged. -/
theorem boundingBox_write_sanitizes_only_empty :
    BoundingBoxBits.EMPTY.writeTo = BoundingBoxBits.ZERO.writeTo ∧
    ∀ b : BoundingBoxBits, b ≠ BoundingBoxBits.EMPTY →
      b.writeTo = writeVec3d b.min ++ writeVec3d b.max := by
  constructor
  · decide
  · intro b hb
    simp only [BoundingBoxBits.writeTo, BoundingBoxBits.sanitize, if_neg hb]

/-- A concrete inverted, non-`EMPTY` box: min = `1.0f32` bits, max =
`-1.0f32` bits on every axis. -/
def witInvertedBox : BoundingBoxBits :=
  ⟨⟨1065353216, 1065353216, 1065353216⟩, ⟨3212836864, 3212836864, 3212836864⟩⟩

theorem boundingBox_write_sanitizes_only_empty_witness :
    witInvertedBox.writeTo = writeVec3d witInvertedBox.min ++ writeVec3d witInvertedBox.max :=
  boundingBox_write_sanitizes_only_empty.2 witInvertedBox (by decide)

/-! ## Property-string mini-format

`&str` is embedded as `List Char`.  The source's byte indices coincide with
character indices on ASCII input (the source itself mixes `chars()`
positions with byte offsets, so it is only meaningful on ASCII text). -/

/-- `char::is_ascii_control`: `U+0000..U+001F` or `U+007F`. -/
def isCtrl (c : Char) : Bool := c.toNat ≤ 31 || c.toNat == 127

/-- `char::is_whitespace`: the Unicode `White_Space` property. -/
def isRustWhitespace (c : Char) : Bool :=
  let n := c.toNat
  n == 9 || n == 10 || n == 11 || n == 12 || n == 13 || n == 32 || n == 133 || n == 160 ||
    n == 5760 || (8192 ≤ n && n ≤ 8202) || n == 8232 || n == 8233 || n == 8239 ||
    n == 8287 || n == 12288

/-- The separator predicate of the skip loop in `properties_find_field`:
`c == '=' || c == ':' || (c.is_whitespace() && c != '\n')`. -/
def isSep (c : Char) : Bool :=
  c == '=' || c == ':' || (isRustWhitespace c && c != '\n')

/-- `str::starts_with`. -/
def listStartsWith : List Char → List Char → Bool
  | _, [] => true
  | [], _ :: _ => false
  | c :: s, p :: ps => c == p && listStartsWith s ps

/-- `str::find(pattern)`: index of the first occurrence. -/
def findSub (s pat : List Char) : Option Nat :=
  if listStartsWith s pat then some 0
  else
    match s with
    | [] => none
    | _ :: rest => (findSub rest pat).map (· + 1)

/-- `chars().position(is_ascii_control)`. -/
def firstCtrlPos : List Char → Option Nat
  | [] => none
  | c :: rest => if isCtrl c then some 0 else (firstCtrlPos rest).map (· + 1)

/-- The separator-skipping `while` loop: length of the leading run of
separator characters. -/
def skipSeps : List Char → Nat
  | [] => 0
  | c :: rest => if isSep c then skipSeps rest + 1 else 0

/-- The `end_idx` computation in `properties_find_field`: the position of
the first ASCII control character at or after the occurrence, or the text
length when there is none. -/
def fieldEndIdx (properties : List Char) (start0 : Nat) : Nat :=
  match firstCtrlPos (properties.drop start0) with
  | some idx => start0 + idx
  | none => properties.length

/-- `properties_find_field`. -/
def properties_find_field (properties field : List Char) : Option (Nat × Nat) :=
  match findSub properties field with
  | none => none
  | some start0 =>
    let start1 := start0 + field.length
    let start2 := start1 + skipSeps (properties.drop start1)
    some (start2, fieldEndIdx properties start0)

/-- `properties_get_field`: slice the found range out of the text.  Rust
slicing `&properties[start_idx..end_idx]` PANICS when `start_idx > end_idx`,
which is reachable: a separator that is also an ASCII control character
(such as `'\x0d'`) lets the separator run advance past the end index.  The
outer `Option` models the panic: `none` is the panic, `some none` is Rust's
`None` (key absent), `some (some v)` is Rust's `Some(v)`. -/
def properties_get_field (properties field : List Char) : Option (Option (List Char)) :=
  match properties_find_field properties field with
  | some (s, e) =>
    if s ≤ e then some (some ((properties.drop s).take (e - s))) else none
  | none => some none

/-- The lookup as worded by the (amended) spec: at the first occurrence of
the key, skip the key and the maximal run of `'='`/`':'`/non-newline
whitespace after it, and take the value up to the first ASCII control
character at or after the occurrence (or the end of the text); when the
separator run extends past that control character the program panics
(outer `none`). -/
def properties_get_field_spec (text key : List Char) : Option (Option (List Char)) :=
  match (List.range (text.length + 1)).find? (fun i => listStartsWith (text.drop i) key) with
  | none => some none
  | some occ =>
    let endIdx := occ + ((text.drop occ).takeWhile (fun c => !isCtrl c)).length
    let startIdx := occ + key.length + ((text.drop (occ + key.length)).takeWhile isSep).length
    if startIdx ≤ endIdx then some (some ((text.drop startIdx).take (endIdx - startIdx)))
    else none

theorem findSub_eq_spec (key : List Char) (text : List Char) :
    findSub text key =
      (List.range (text.length + 1)).find? (fun i => listStartsWith (text.drop i) key) := by
  induction text with
  | nil =>
    have h1 : List.range 1 = [0] := by decide
    rw [List.length_nil, Nat.zero_add, h1]
    cases h : listStartsWith [] key <;> simp [findSub, List.find?, h]
  | cons c rest ih =>
    rw [List.length_cons, List.range_succ_eq_map]
    have hdrop : (fun i => listStartsWith ((c :: rest).drop i) key) ∘ Nat.succ =
        fun i => listStartsWith (rest.drop i) key := by
      funext i
      simp [Function.comp, List.drop_succ_cons]
    cases h : listStartsWith (c :: rest) key with
    | true => simp [findSub, h, List.find?]
    | false =>
      rw [findSub]
      simp only [h, Bool.false_eq_true, if_false, List.find?, List.drop_zero]
      rw [List.find?_map, hdrop, ← ih]

theorem firstCtrlPos_takeWhile (l : List Char) :
    (firstCtrlPos l).getD l.length = (l.takeWhile (fun c => !isCtrl c)).length := by
  induction l with
  | nil => simp [firstCtrlPos]
  | cons c rest ih =>
    cases h : isCtrl c with
    | true => simp [firstCtrlPos, List.takeWhile, h]
    | false =>
      simp only [firstCtrlPos, h, if_false, List.takeWhile, Bool.not_false, List.length_cons]
      cases hr : firstCtrlPos rest with
      | none => simpa [hr] using ih
      | some i => simpa [hr] using ih

theorem skipSeps_takeWhile (l : List Char) : skipSeps l = (l.takeWhile isSep).length := by
  induction l with
  | nil => simp [skipSeps]
  | cons c rest ih =>
    cases h : isSep c with
    | true => simp [skipSeps, List.takeWhile, h, ih]
    | false => simp [skipSeps, List.takeWhile, h]

theorem findSub_le_length {text key : List Char} {i : Nat} (h : findSub text key = some i) :
    i ≤ text.length := by
  induction text generalizing i with
  | nil =>
    rw [findSub] at h
    split at h
    · cases h; exact Nat.le_refl 0
    · cases h
  | cons c rest ih =>
    rw [findSub] at h
    split at h
    · cases h; exact Nat.zero_le _
    · rcases Option.map_eq_some'.mp h with ⟨j, hj, rfl⟩
      exact Nat.succ_le_succ (ih hj)

/-- When the key is empty, `find` matches at index 0. -/
theorem findSub_nil_key (text : List Char) : findSub text [] = some 0 := by
  cases text <;> simp [findSub, listStartsWith]

/-- Claim C7, counterexample: the returned value is NOT trimmed — a value
with a trailing space is returned with the space kept. -/
theorem properties_get_field_not_trimmed :
    properties_get_field "k=v ".toList "k".toList = some (some "v ".toList) ∧
    ("v ".toList.dropWhile isRustWhitespace).reverse.dropWhile isRustWhitespace ≠
      "v ".toList.reverse := by
  decide

theorem fieldEndIdx_eq_takeWhile (text : List Char) (occ : Nat) (hocc : occ ≤ text.length) :
    fieldEndIdx text occ = occ + ((text.drop occ).takeWhile (fun c => !isCtrl c)).length := by
  have htw := firstCtrlPos_takeWhile (text.drop occ)
  cases hc : firstCtrlPos (text.drop occ) with
  | none =>
    rw [hc] at htw
    simp only [Option.getD_none, List.length_drop] at htw
    rw [fieldEndIdx, hc]
    show text.length = occ + ((text.drop occ).takeWhile (fun c => !isCtrl c)).length
    omega
  | some i =>
    rw [hc] at htw
    simp only [Option.getD_some] at htw
    rw [fieldEndIdx, hc]
    show occ + i = occ + ((text.drop occ).takeWhile (fun c => !isCtrl c)).length
    omega

/-- Claim C7 (amended): `properties_get_field(text, key)` returns `Some` of
the UNTRIMMED value after the first occurrence of `key`, skipping the
maximal run of `'='`, `':'` and non-newline whitespace after the key, with
the value terminated at the first ASCII control character at or after the
occurrence; it PANICS when that separator run extends past the control
character (reachable, e.g. on the text `"k\x0dv"` with key `"k"`); and it
returns `None` exactly when the key does not occur in the text
(case-sensitive match). -/
theorem properties_get_field_characterization :
    (∀ text key : List Char,
      properties_get_field text key = properties_get_field_spec text key ∧
      (properties_get_field text key = some none ↔
        ∀ i, listStartsWith (text.drop i) key = false)) ∧
    properties_get_field "k\x0dv".toList "k".toList = none := by
  refine ⟨fun text key => ?_, by decide⟩
  have hfind := findSub_eq_spec key text
  constructor
  · rw [properties_get_field, properties_get_field_spec, properties_find_field, ← hfind]
    cases h : findSub text key with
    | none => rfl
    | some occ =>
      have hocc : occ ≤ text.length := findSub_le_length h
      simp only [fieldEndIdx_eq_takeWhile text occ hocc, skipSeps_takeWhile]
  · have hgf : properties_get_field text key = some none ↔ findSub text key = none := by
      rw [properties_get_field, properties_find_field]
      cases findSub text key with
      | none => simp
      | some occ =>
        simp only [Option.some.injEq]
        constructor
        · intro h
          split at h <;> simp at h
        · intro h
          exact absurd h (by simp)
    rw [hgf, hfind, List.find?_eq_none]
    constructor
    · intro hall i
      by_cases hi : i ≤ text.length
      · have hmem : i ∈ List.range (text.length + 1) := List.mem_range.mpr (by omega)
        simpa using hall i hmem
      · have hkey : key ≠ [] := by
          intro hk
          subst hk
          have h0 := hall 0 (List.mem_range.mpr (by omega))
          rw [List.drop_zero] at h0
          exact h0 (by cases text <;> rfl)
        rw [List.drop_eq_nil_of_le (by omega)]
        cases key with
        | nil => exact absurd rfl hkey
        | cons a as => rfl
    · intro hall i _
      simp [hall i]

/-! ## Subobject hierarchy

`ObjectId` is embedded as `Nat`; `ObjVec` indexing as list lookup (the
source's `[]` indexing panics out of range; every verified use is in
range). -/

/-- `NameLink`. -/
inductive NameLink where
  | destroyedVersion (id : Nat) : NameLink
  | destroyedVersionOf (id : Nat) : NameLink
  | liveDebris (id : Nat) : NameLink
  | liveDebrisOf (id : Nat) : NameLink
  | detailLevel (id : Nat) (level : Nat) : NameLink
  | detailLevelOf (id : Nat) (level : Nat) : NameLink
deriving DecidableEq

/-- `SubObject`, restricted to the fields the verified operations read or
write. -/
structure SubObject where
  objId : Nat
  parent : Option Nat
  offset : Vec3d
  name : List Char
  children : List Nat
  nameLinks : List NameLink
deriving DecidableEq

def parentOf (objs : List SubObject) (i : Nat) : Option Nat :=
  match objs.get? i with
  | some o => o.parent
  | none => none

def offsetOf (objs : List SubObject) (i : Nat) : Vec3d :=
  match objs.get? i with
  | some o => o.offset
  | none => Vec3d.zero

def childrenOf (objs : List SubObject) (i : Nat) : List Nat :=
  match objs.get? i with
  | some o => o.children
  | none => []

/-- Outcome of the `is_obj_id_ancestor` loop body. -/
inductive WalkResult where
  | val (b : Bool) : WalkResult
  | assertFail : WalkResult
deriving DecidableEq

/-- The `loop` of `Model::is_obj_id_ancestor`, fuel-indexed: `none` means the
loop has not finished within the fuel.  One iteration returns `true` when
the current ancestor equals the target, `false` at the root, fires the
cycle assertion when the current ancestor equals its own parent
(`assert!(sub_obj_parent != … .parent)`), and otherwise steps to the
parent. -/
def ancWalkFrom (objs : List SubObject) (maybeAncestor : Nat) :
    Option Nat → Nat → Option WalkResult
  | _, 0 => none
  | cur, fuel + 1 =>
    if cur = some maybeAncestor then some (WalkResult.val true)
    else
      match cur with
      | none => some (WalkResult.val false)
      | some p =>
        if parentOf objs p = some p then some WalkResult.assertFail
        else ancWalkFrom objs maybeAncestor (parentOf objs p) fuel

/-- `Model::is_obj_id_ancestor`. -/
def is_obj_id_ancestor (objs : List SubObject) (objId maybeAncestor : Nat) (fuel : Nat) :
    Option WalkResult :=
  if objId = maybeAncestor then some (WalkResult.val true)
  else ancWalkFrom objs maybeAncestor (parentOf objs objId) fuel

/-- Iterated parent lookup: the ancestor at distance `k`. -/
def parentIter (objs : List SubObject) (i : Nat) : Nat → Option Nat
  | 0 => some i
  | k + 1 =>
    match parentOf objs i with
    | some p => parentIter objs p k
    | none => none

/-- The parent relation has no cycle: every parent chain reaches a root. -/
def Acyclic (objs : List SubObject) : Prop := ∀ i, ∃ k, parentIter objs i k = none

/-- A minimal model whose parent links form the two-cycle `0 → 1 → 0`, with
`2` an unrelated root. -/
def cycModel : List SubObject :=
  [{ objId := 0, parent := some 1, offset := Vec3d.zero, name := [], children := [],
     nameLinks := [] },
   { objId := 1, parent := some 0, offset := Vec3d.zero, name := [], children := [],
     nameLinks := [] },
   { objId := 2, parent := none, offset := Vec3d.zero, name := [], children := [],
     nameLinks := [] }]

theorem cycModel_walk_diverges (fuel : Nat) :
    ancWalkFrom cycModel 2 (some 0) fuel = none ∧
      ancWalkFrom cycModel 2 (some 1) fuel = none := by
  induction fuel with
  | zero => exact ⟨rfl, rfl⟩
  | succ n ih =>
    constructor
    · have h1 : parentOf cycModel 0 = some 1 := by decide
      simp only [ancWalkFrom, h1]
      norm_num
      exact ih.2
    · have h0 : parentOf cycModel 1 = some 0 := by decide
      simp only [ancWalkFrom, h0]
      norm_num
      exact ih.1

/-- Claim C2: on the parent two-cycle `0 → 1 → 0` the ancestry query neither
returns nor fires the cycle assertion at any fuel — the loop runs forever.
The assertion compares only *successive* ancestors (`p` against
`p.parent`), and in a two-cycle successive ancestors always differ, so the
claimed fatal fault never happens and `is_obj_id_ancestor(0, 2)` diverges. -/
theorem is_obj_id_ancestor_two_cycle_diverges :
    parentOf cycModel 0 = some 1 ∧ parentOf cycModel 1 = some 0 ∧
      ∀ fuel, is_obj_id_ancestor cycModel 0 2 fuel = none := by
  refine ⟨by decide, by decide, ?_⟩
  intro fuel
  have h1 : parentOf cycModel 0 = some 1 := by decide
  simp only [is_obj_id_ancestor, h1]
  norm_num
  exact (cycModel_walk_diverges fuel).2

/-- `2^e` as a rational, for an integer exponent. -/
def pow2 (e : Int) : ℚ :=
  if 0 ≤ e then ((2 ^ e.toNat : ℕ) : ℚ) else 1 / ((2 ^ (-e).toNat : ℕ) : ℚ)

/-- `⌊log₂ n⌋` on naturals, fuel-indexed (the fuel only needs to cover the
halving depth; `n` itself always suffices). -/
def log2Fuel : Nat → Nat → Nat
  | 0, _ => 0
  | fuel + 1, n => if 2 ≤ n then log2Fuel fuel (n / 2) + 1 else 0

/-- `⌊log₂ q⌋` for a positive rational, located from the binary magnitudes
of the numerator and denominator. -/
def floorLog2 (q : ℚ) : Int :=
  let a : Int := (log2Fuel q.num.natAbs q.num.natAbs : Nat)
  let b : Int := (log2Fuel q.den q.den : Nat)
  if q < pow2 (a - b) then a - b - 1 else a - b

/-- Round a rational to the nearest integer, ties to even. -/
def roundNearestEven (q : ℚ) : Int :=
  let f := q.floor
  let r := q - (f : ℚ)
  if r < 1 / 2 then f else if 1 / 2 < r then f + 1 else if f % 2 = 0 then f else f + 1

/-- Round-to-nearest-even `f32` rounding of an exact rational: quantize at
`2 ^ (e - 23)` for the binary exponent `e` of the magnitude, clamped below
at `-126` (IEEE 754 binary32 gradual underflow).  A magnitude at or above
`2 ^ 128` becomes infinity in the source; the embedding keeps the exact
rounded value there, a range none of the verified operations reach.  The
offset bookkeeping of `make_parent` is sensitive to rounding, so unlike the
geometric constructions above it is embedded with this `f32` model. -/
def fl (q : ℚ) : ℚ :=
  if q = 0 then 0
  else
    let e := max (floorLog2 |q|) (-126)
    let quantum := pow2 (e - 23)
    (roundNearestEven (q / quantum) : ℚ) * quantum

/-- Componentwise `f32` addition (`impl Add for Vec3d`, rounding modelled). -/
def Vec3d.addF32 (a b : Vec3d) : Vec3d := ⟨fl (a.x + b.x), fl (a.y + b.y), fl (a.z + b.z)⟩

/-- Componentwise `f32` subtraction (`impl Sub for Vec3d`, rounding
modelled). -/
def Vec3d.subF32 (a b : Vec3d) : Vec3d := ⟨fl (a.x - b.x), fl (a.y - b.y), fl (a.z - b.z)⟩

/-- The loop of `Model::get_total_subobj_offset`, fuel-indexed: accumulate
the offsets of the ancestors of `cur` onto `acc` with `f32` additions. -/
def totalOffsetAux (objs : List SubObject) : Nat → Nat → Vec3d → Option Vec3d
  | 0, _, _ => none
  | fuel + 1, cur, acc =>
    match parentOf objs cur with
    | none => some acc
    | some p => totalOffsetAux objs fuel p (acc.addF32 (offsetOf objs p))

/-- `Model::get_total_subobj_offset`. -/
def get_total_subobj_offset (objs : List SubObject) (id : Nat) (fuel : Nat) : Option Vec3d :=
  totalOffsetAux objs fuel id (offsetOf objs id)

/-- In-place mutation of one subobject (`self.sub_objects[i].… = …`).  Out
of range the source panics; the embedding leaves the list unchanged (every
verified use is in range). -/
def updateSub (objs : List SubObject) (i : Nat) (f : SubObject → SubObject) :
    List SubObject :=
  match objs.get? i with
  | some o => objs.set i (f o)
  | none => objs

/-- `Model::make_parent`, fuel-indexed (the fuel bounds the two internal
parent walks; an overall `none` means a walk did not finish — divergence or
the cycle assertion in the source).  On the `Some` path: push the child
onto the parent's children, set the child's parent, then shift the child's
offset down by the offset accumulated from its new ancestors, using `f32`
subtractions as the source does. -/
def make_parent (objs : List SubObject) (newParent newChild : Nat) (fuel : Nat) :
    Option (Option Unit × List SubObject) :=
  match is_obj_id_ancestor objs newParent newChild fuel with
  | some (WalkResult.val true) => some (none, objs)
  | some (WalkResult.val false) =>
    let objs1 := updateSub objs newParent fun o => { o with children := o.children ++ [newChild] }
    let objs2 := updateSub objs1 newChild fun o => { o with parent := some newParent }
    match get_total_subobj_offset objs2 newChild fuel with
    | none => none
    | some tot =>
      let offsetFromParents := tot.subF32 (offsetOf objs2 newChild)
      some (some (), updateSub objs2 newChild fun o => { o with offset := o.offset.subF32 offsetFromParents })
  | _ => none

theorem get?_updateSub_self {objs : List SubObject} {i : Nat} {o : SubObject}
    (f : SubObject → SubObject) (h : objs.get? i = some o) :
    (updateSub objs i f).get? i = some (f o) := by
  rw [updateSub, h]
  exact List.get?_set_eq_of_lt _ (List.get?_eq_some.mp h).1

theorem get?_updateSub_ne {objs : List SubObject} {i : Nat} (f : SubObject → SubObject)
    (j : Nat) (h : j ≠ i) : (updateSub objs i f).get? j = objs.get? j := by
  rw [updateSub]
  cases hg : objs.get? i with
  | none => rfl
  | some o => exact List.get?_set_ne _ _ (Ne.symm h)

theorem parentOf_updateSub_ne {objs : List SubObject} {i : Nat} (f : SubObject → SubObject)
    (j : Nat) (h : j ≠ i) : parentOf (updateSub objs i f) j = parentOf objs j := by
  rw [parentOf, get?_updateSub_ne f j h, parentOf]

theorem offsetOf_updateSub_ne {objs : List SubObject} {i : Nat} (f : SubObject → SubObject)
    (j : Nat) (h : j ≠ i) : offsetOf (updateSub objs i f) j = offsetOf objs j := by
  rw [offsetOf, get?_updateSub_ne f j h, offsetOf]

theorem childrenOf_updateSub_ne {objs : List SubObject} {i : Nat} (f : SubObject → SubObject)
    (j : Nat) (h : j ≠ i) : childrenOf (updateSub objs i f) j = childrenOf objs j := by
  rw [childrenOf, get?_updateSub_ne f j h, childrenOf]

/-- A `false` result of the walk means no ancestor of the start equals the
target. -/
theorem ancWalkFrom_false_avoid (objs : List SubObject) (c : Nat) :
    ∀ fuel cur, ancWalkFrom objs c cur fuel = some (WalkResult.val false) →
      ∀ q, cur = some q → ∀ k, parentIter objs q k ≠ some c := by
  intro fuel
  induction fuel with
  | zero => intro cur h; cases h
  | succ n ih =>
    intro cur h q hq k
    subst hq
    rw [ancWalkFrom] at h
    by_cases hqc : some q = some c
    · rw [if_pos hqc] at h
      cases h
    · rw [if_neg hqc] at h
      have hq_ne : q ≠ c := fun he => hqc (by rw [he])
      by_cases hself : parentOf objs q = some q
      · rw [if_pos hself] at h
        cases h
      · rw [if_neg hself] at h
        cases k with
        | zero => simpa [parentIter] using hq_ne
        | succ k =>
          rw [parentIter]
          cases hp : parentOf objs q with
          | none => simp
          | some r =>
            rw [hp] at h
            exact ih _ h r rfl k

/-- A `false` ancestry answer: the queried ids differ and no ancestor of the
first equals the second. -/
theorem is_obj_id_ancestor_false_facts {objs : List SubObject} {p c fuel : Nat}
    (h : is_obj_id_ancestor objs p c fuel = some (WalkResult.val false)) :
    p ≠ c ∧ ∀ k, parentIter objs p k ≠ some c := by
  rw [is_obj_id_ancestor] at h
  by_cases hpc : p = c
  · rw [if_pos hpc] at h
    cases h
  · rw [if_neg hpc] at h
    refine ⟨hpc, ?_⟩
    intro k
    cases k with
    | zero => simpa [parentIter] using hpc
    | succ k =>
      rw [parentIter]
      cases hp : parentOf objs p with
      | none => simp
      | some r =>
        rw [hp] at h
        exact ancWalkFrom_false_avoid objs c fuel _ h r rfl k

/-- Parent chains that avoid `c` are insensitive to edits of `c`'s links. -/
theorem parentIter_congr {objs1 objs2 : List SubObject} {c : Nat}
    (hpar : ∀ j, j ≠ c → parentOf objs1 j = parentOf objs2 j) :
    ∀ k q, (∀ m, parentIter objs1 q m ≠ some c) →
      parentIter objs2 q k = parentIter objs1 q k := by
  intro k
  induction k with
  | zero => intro q _; rfl
  | succ k ih =>
    intro q havoid
    have hqc : q ≠ c := by
      have h0 := havoid 0
      simpa [parentIter] using h0
    rw [parentIter, parentIter, ← hpar q hqc]
    cases hp : parentOf objs1 q with
    | none => rfl
    | some r =>
      refine ih r ?_
      intro m
      have := havoid (m + 1)
      rw [parentIter, hp] at this
      exact this

/-- The offset accumulation is insensitive to changes of `c`'s offset as
long as the chain never steps to `c`. -/
theorem totalOffsetAux_congr {objs1 objs2 : List SubObject} {c : Nat}
    (hpar : ∀ j, parentOf objs1 j = parentOf objs2 j)
    (hoff : ∀ j, j ≠ c → offsetOf objs1 j = offsetOf objs2 j) :
    ∀ fuel cur acc, (∀ m, parentIter objs1 cur (m + 1) ≠ some c) →
      totalOffsetAux objs1 fuel cur acc = totalOffsetAux objs2 fuel cur acc := by
  intro fuel
  induction fuel with
  | zero => intro cur acc _; rfl
  | succ n ih =>
    intro cur acc havoid
    cases hp : parentOf objs1 cur with
    | none => simp only [totalOffsetAux, ← hpar cur, hp]
    | some pp =>
      have hppc : pp ≠ c := by
        have h1 := havoid 0
        rw [parentIter, hp] at h1
        simpa [parentIter] using h1
      simp only [totalOffsetAux, ← hpar cur, hp]
      rw [hoff pp hppc]
      refine ih pp _ ?_
      intro m
      have := havoid (m + 1)
      rw [parentIter, hp] at this
      exact this

/-- A chain that terminates within the fuel yields a successful total. -/
theorem totalOffsetAux_some_of_iter_none (objs : List SubObject) :
    ∀ fuel cur acc, parentIter objs cur fuel = none →
      ∃ t, totalOffsetAux objs fuel cur acc = some t := by
  intro fuel
  induction fuel with
  | zero => intro cur acc h; cases h
  | succ n ih =>
    intro cur acc h
    cases hp : parentOf objs cur with
    | none => exact ⟨acc, by simp only [totalOffsetAux, hp]⟩
    | some p =>
      rw [parentIter, hp] at h
      simp only [totalOffsetAux, hp]
      exact ih p _ h

/-- Claim C10 (amended): `make_parent(new_parent, new_child)` returns `None`
with the model unchanged whenever `new_child` is an ancestor of (or equal
to) `new_parent`; on success, given the child previously had no parent, it
sets the child's parent, appends the child to the parent's children,
changes no other parent/children/offset field, replaces the child's offset
by the `f32` subtraction of the offset accumulated from its new ancestors
(so the child's total offset from the root is preserved only up to `f32`
rounding, not exactly), and never creates a parent cycle (acyclicity is
preserved). -/
theorem make_parent_spec :
    (∀ objs p c fuel, is_obj_id_ancestor objs p c fuel = some (WalkResult.val true) →
      make_parent objs p c fuel = some (none, objs)) ∧
    (∀ objs p c f oc op,
      is_obj_id_ancestor objs p c (f + 1) = some (WalkResult.val false) →
      objs.get? c = some oc → oc.parent = none → objs.get? p = some op →
      parentIter objs p f = none → Acyclic objs →
      ∃ objs', make_parent objs p c (f + 1) = some (some (), objs') ∧
        parentOf objs' c = some p ∧
        childrenOf objs' p = childrenOf objs p ++ [c] ∧
        (∀ j, j ≠ c → parentOf objs' j = parentOf objs j) ∧
        (∀ j, j ≠ p → childrenOf objs' j = childrenOf objs j) ∧
        (∀ j, j ≠ c → offsetOf objs' j = offsetOf objs j) ∧
        (∃ tot,
          get_total_subobj_offset
              (updateSub (updateSub objs p (fun o => { o with children := o.children ++ [c] })) c
                (fun o => { o with parent := some p })) c (f + 1) = some tot ∧
          offsetOf objs' c = (offsetOf objs c).subF32 (tot.subF32 (offsetOf objs c))) ∧
        Acyclic objs') := by
  constructor
  · intro objs p c fuel h
    simp only [make_parent, h]
  · intro objs p c f oc op hwalk hc hcp hp hterm hacyc
    obtain ⟨hpc, havoidp⟩ := is_obj_id_ancestor_false_facts hwalk
    have hcnep : c ≠ p := Ne.symm hpc
    set objs1 := updateSub objs p (fun o => { o with children := o.children ++ [c] })
      with hobjs1
    set objs2 := updateSub objs1 c (fun o => { o with parent := some p }) with hobjs2
    have hc1 : objs1.get? c = some oc := (get?_updateSub_ne _ c hcnep).trans hc
    have hc2 : objs2.get? c = some { oc with parent := some p } := get?_updateSub_self _ hc1
    have hp1 : objs1.get? p = some { op with children := op.children ++ [c] } :=
      get?_updateSub_self _ hp
    have hp2 : objs2.get? p = some { op with children := op.children ++ [c] } :=
      (get?_updateSub_ne _ p hpc).trans hp1
    have hpar2 : ∀ j, j ≠ c → parentOf objs2 j = parentOf objs j := by
      intro j hj
      rw [parentOf_updateSub_ne _ j hj]
      by_cases hjp : j = p
      · subst hjp
        simp only [parentOf, hp1, hp]
      · rw [parentOf_updateSub_ne _ j hjp]
    have hpar2c : parentOf objs2 c = some p := by simp only [parentOf, hc2]
    have hoff2 : ∀ j, offsetOf objs2 j = offsetOf objs j := by
      intro j
      by_cases hjc : j = c
      · subst hjc
        simp only [offsetOf, hc2, hc]
      · rw [offsetOf_updateSub_ne _ j hjc]
        by_cases hjp : j = p
        · subst hjp
          simp only [offsetOf, hp1, hp]
        · rw [offsetOf_updateSub_ne _ j hjp]
    have havoidp2 : ∀ m, parentIter objs2 p m ≠ some c := by
      intro m
      rw [parentIter_congr (fun j hj => (hpar2 j hj).symm) m p havoidp]
      exact havoidp m
    have hterm2 : parentIter objs2 c (f + 1) = none := by
      simp only [parentIter, hpar2c]
      rw [parentIter_congr (fun j hj => (hpar2 j hj).symm) f p havoidp]
      exact hterm
    obtain ⟨tot, htot⟩ :=
      totalOffsetAux_some_of_iter_none objs2 (f + 1) c (offsetOf objs2 c) hterm2
    have hgt : get_total_subobj_offset objs2 c (f + 1) = some tot := htot
    set objs' := updateSub objs2 c
      (fun o => { o with offset := o.offset.subF32 (tot.subF32 (offsetOf objs2 c)) }) with hobjs'
    have hc' : objs'.get? c = some { oc with parent := some p, offset := oc.offset.subF32 (tot.subF32 (offsetOf objs2 c)) } :=
      get?_updateSub_self _ hc2
    have hparc' : parentOf objs' c = some p := by simp only [parentOf, hc']
    have hparfix : ∀ j, j ≠ c → parentOf objs' j = parentOf objs j := by
      intro j hj
      rw [parentOf_updateSub_ne _ j hj]
      exact hpar2 j hj
    refine ⟨objs', ?_, ?_, ?_, ?_, ?_, ?_, ?_, ?_⟩
    · simp only [make_parent, hwalk]
      rw [← hobjs1, ← hobjs2]
      simp only [hgt]
    · exact hparc'
    · rw [childrenOf_updateSub_ne _ p hpc]
      simp only [childrenOf, hp2, hp]
    · exact hparfix
    · intro j hj
      by_cases hjc : j = c
      · subst hjc
        simp only [childrenOf, hc', hc]
      · rw [childrenOf_updateSub_ne _ j hjc, childrenOf_updateSub_ne _ j hjc,
          childrenOf_updateSub_ne _ j hj]
    · intro j hj
      rw [offsetOf_updateSub_ne _ j hj]
      exact hoff2 j
    · have hacc : offsetOf objs' c = oc.offset.subF32 (tot.subF32 (offsetOf objs2 c)) := by
        simp only [offsetOf, hc']
      have hoc2 : offsetOf objs2 c = oc.offset := by simp only [offsetOf, hc2]
      have hocc : offsetOf objs c = oc.offset := by simp only [offsetOf, hc]
      refine ⟨tot, hgt, ?_⟩
      rw [hacc, hoc2, hocc]
    · have hiterp : ∀ k, parentIter objs' p k = parentIter objs p k :=
        fun k => parentIter_congr (fun j hj => (hparfix j hj).symm) k p havoidp
      have hnew : ∀ k i, parentIter objs i k = none → ∃ m, parentIter objs' i m = none := by
        intro k
        induction k with
        | zero =>
          intro i h
          simp [parentIter] at h
        | succ k ih =>
          intro i h
          by_cases hic : i = c
          · subst hic
            refine ⟨f + 1, ?_⟩
            simp only [parentIter, hparc']
            rw [hiterp f]
            exact hterm
          · simp only [parentIter] at h
            cases hpi : parentOf objs i with
            | none => exact ⟨1, by simp only [parentIter, hparfix i hic, hpi]⟩
            | some j =>
              rw [hpi] at h
              obtain ⟨m, hm⟩ := ih j h
              refine ⟨m + 1, ?_⟩
              simp only [parentIter, hparfix i hic, hpi]
              exact hm
      intro i
      obtain ⟨k, hk⟩ := hacyc i
      exact hnew k i hk

/-- Two unparented subobjects, for exercising a successful `make_parent`. -/
def mpModel : List SubObject :=
  [{ objId := 0, parent := none, offset := ⟨1, 2, 3⟩, name := [], children := [],
     nameLinks := [] },
   { objId := 1, parent := none, offset := ⟨4, 5, 6⟩, name := [], children := [],
     nameLinks := [] }]

theorem mpModel_acyclic : Acyclic mpModel := by
  intro i
  refine ⟨2, ?_⟩
  match i with
  | 0 => rfl
  | 1 => rfl
  | n + 2 => rfl

theorem make_parent_spec_witness :
    ∃ objs', make_parent mpModel 0 1 2 = some (some (), objs') ∧
      parentOf objs' 1 = some 0 ∧ childrenOf objs' 0 = [1] := by
  obtain ⟨objs', h1, h2, h3, _h4, _h5, _h6, _h7, _h8⟩ :=
    make_parent_spec.2 mpModel 0 1 1
      { objId := 1, parent := none, offset := ⟨4, 5, 6⟩, name := [], children := [],
        nameLinks := [] }
      { objId := 0, parent := none, offset := ⟨1, 2, 3⟩, name := [], children := [],
        nameLinks := [] }
      (by decide) (by decide) rfl (by decide) (by decide) mpModel_acyclic
  refine ⟨objs', h1, h2, ?_⟩
  rw [h3]
  rfl

/-- Two unparented subobjects whose offsets expose the `f32` rounding of the
offset adjustment: the child's offset `1.0` is lost against the parent's
`1e8` (both exactly representable in `f32`). -/
def fpModel : List SubObject :=
  [{ objId := 0, parent := none, offset := ⟨100000000, 0, 0⟩, name := [], children := [],
     nameLinks := [] },
   { objId := 1, parent := none, offset := ⟨1, 0, 0⟩, name := [], children := [],
     nameLinks := [] }]

unseal Rat.add Rat.sub Rat.mul Rat.inv in
/-- Claim C10, counterexample to exact total-offset preservation: parenting
a child with offset `1.0` under a parent at offset `1e8` succeeds, but the
child's recomputed total offset is `0.0`, not the original `1.0` — the
`f32` subtraction rounds `1 - 1e8` to `-1e8`, so the adjustment does not
cancel exactly. -/
theorem make_parent_offset_drift :
    offsetOf fpModel 1 = ⟨1, 0, 0⟩ ∧
    get_total_subobj_offset fpModel 1 2 = some ⟨1, 0, 0⟩ ∧
    ∃ objs', make_parent fpModel 0 1 2 = some (some (), objs') ∧
      get_total_subobj_offset objs' 1 2 = some ⟨0, 0, 0⟩ := by
  refine ⟨by decide, by decide,
    [{ objId := 0, parent := none, offset := ⟨100000000, 0, 0⟩, name := [], children := [1],
       nameLinks := [] },
     { objId := 1, parent := some 0, offset := ⟨-100000000, 0, 0⟩, name := [], children := [],
       nameLinks := [] }], by decide, by decide⟩

/-! ## Semantic name links (`Model::recalc_semantic_name_links`) -/

/-- `str::split_once`: the text before and after the first occurrence of the
pattern. -/
def splitOnce (s pat : List Char) : Option (List Char × List Char) :=
  match findSub s pat with
  | none => none
  | some i => some (s.take i, s.drop (i + pat.length))

/-- `str::strip_suffix`. -/
def stripSuffix (s pat : List Char) : Option (List Char) :=
  if pat.length ≤ s.length ∧ s.drop (s.length - pat.length) = pat then
    some (s.take (s.length - pat.length))
  else none

def nameOf (objs : List SubObject) (i : Nat) : List Char :=
  match objs.get? i with
  | some o => o.name
  | none => []

def linksOf (objs : List SubObject) (i : Nat) : List NameLink :=
  match objs.get? i with
  | some o => o.nameLinks
  | none => []

/-- `self.sub_objects[idx].name_links.push(L)`. -/
def pushLink (objs : List SubObject) (idx : Nat) (L : NameLink) : List SubObject :=
  updateSub objs idx fun o => { o with nameLinks := o.nameLinks ++ [L] }

/-- The debris pattern `"debris-"`. -/
def debrisPat : List Char := "debris-".toList

/-- The destroyed suffix `"-destroyed"`. -/
def destroyedPat : List Char := "-destroyed".toList

/-- The live-debris check of `recalc_semantic_name_links` for subobject `i`:
if `i`'s name contains `"debris-"` and the remainder after it starts with
some subobject's name, link the first such subobject (by iteration order)
and `i` as a live-debris pair. -/
def debrisCheck (objs : List SubObject) (i : Nat) : List SubObject :=
  match splitOnce (nameOf objs i) debrisPat with
  | some (_, debrisOf) =>
    match objs.find? (fun o => listStartsWith debrisOf o.name) with
    | some obj => pushLink (pushLink objs obj.objId (NameLink.liveDebris i)) i
      (NameLink.liveDebrisOf obj.objId)
    | none => objs
  | none => objs

/-- The destroyed-version check for subobject `i`. -/
def destroyedCheck (objs : List SubObject) (i : Nat) : List SubObject :=
  match stripSuffix (nameOf objs i) destroyedPat with
  | some destroyedOf =>
    match objs.find? (fun o => o.name == destroyedOf) with
    | some obj => pushLink (pushLink objs obj.objId (NameLink.destroyedVersion i)) i
      (NameLink.destroyedVersionOf obj.objId)
    | none => objs
  | none => objs

/-- The detail-level check for the pair `(i, j)`: equal-length names of two
parented subobjects differing in exactly one position, holding `'a'` in
`i`'s name and `'b'..='h'` in `j`'s. -/
def detailCheck (objs : List SubObject) (i j : Nat) : List SubObject :=
  let name1 := nameOf objs i
  let name2 := nameOf objs j
  if name1.length = name2.length ∧ (parentOf objs j).isSome ∧ (parentOf objs i).isSome then
    match (name1.zip name2).filter (fun cc => !(cc.1 == cc.2)) with
    | [(c1, c2)] =>
      if c1 = 'a' ∧ 'b' ≤ c2 ∧ c2 ≤ 'h' then
        pushLink (pushLink objs j (NameLink.detailLevelOf i (c2.toNat - 'a'.toNat))) i
          (NameLink.detailLevel j (c2.toNat - 'a'.toNat))
      else objs
    | _ => objs
  else objs

/-- One iteration of the outer loop of `recalc_semantic_name_links`. -/
def recalcStep (objs : List SubObject) (i : Nat) : List SubObject :=
  let objs1 := debrisCheck objs i
  let objs2 := destroyedCheck objs1 i
  (List.range objs2.length).foldl (fun acc j => detailCheck acc i j) objs2

/-- `Model::recalc_semantic_name_links`: clear all links, then run the three
checks for every subobject index. -/
def recalc_semantic_name_links (objs : List SubObject) : List SubObject :=
  let cleared := objs.map fun o => { o with nameLinks := [] }
  (List.range cleared.length).foldl recalcStep cleared

/-- The two-subobject model refuting the claim's prefix direction: the
remainder `"ro"` after `"debris-"` IS a prefix of `"rock"`, but the code
checks the reverse direction (some subobject's name must be a prefix of the
remainder), so no link is generated. -/
def ceModel : List SubObject :=
  [{ objId := 0, parent := none, offset := Vec3d.zero, name := "rock".toList, children := [],
     nameLinks := [] },
   { objId := 1, parent := none, offset := Vec3d.zero, name := "debris-ro".toList,
     children := [], nameLinks := [] }]

/-- Claim C3, counterexample: subobject 1 is named `"debris-ro"` and the
remainder `"ro"` matches a prefix of subobject 0's name `"rock"`, so the
claim demands a LiveDebris/LiveDebrisOf pair; but
`recalc_semantic_name_links` generates no link at all, because the code
requires the other subobject's NAME to be a prefix of the REMAINDER. -/
theorem debris_prefix_direction_counterexample :
    splitOnce (nameOf ceModel 1) debrisPat = some ([], "ro".toList) ∧
    listStartsWith "rock".toList "ro".toList = true ∧
    linksOf (recalc_semantic_name_links ceModel) 0 = [] ∧
    linksOf (recalc_semantic_name_links ceModel) 1 = [] := by
  decide

/-- Every stored `obj_id` indexes back into the collection — the data-model
invariant under which the name-link pass operates. -/
def WFIds (objs : List SubObject) : Prop := ∀ o ∈ objs, o.objId < objs.length

theorem length_updateSub (objs : List SubObject) (idx : Nat) (f : SubObject → SubObject) :
    (updateSub objs idx f).length = objs.length := by
  rw [updateSub]
  cases objs.get? idx with
  | none => rfl
  | some o => exact List.length_set ..

theorem length_pushLink (objs : List SubObject) (idx : Nat) (L : NameLink) :
    (pushLink objs idx L).length = objs.length := length_updateSub ..

theorem linksOf_pushLink (objs : List SubObject) {idx : Nat} {o : SubObject}
    (h : objs.get? idx = some o) (L : NameLink) (a : Nat) :
    linksOf (pushLink objs idx L) a =
      if a = idx then linksOf objs a ++ [L] else linksOf objs a := by
  by_cases ha : a = idx
  · subst ha
    rw [if_pos rfl, pushLink, linksOf, get?_updateSub_self _ h, linksOf, h]
  · rw [if_neg ha, pushLink, linksOf, get?_updateSub_ne _ a ha, linksOf]

theorem pushLink_oob (objs : List SubObject) {idx : Nat} (h : objs.get? idx = none)
    (L : NameLink) : pushLink objs idx L = objs := by
  rw [pushLink, updateSub, h]

/-- Membership in the links after a paired push at indices `j` then `i`. -/
theorem mem_linksOf_pushPair {objs : List SubObject} {j i : Nat} {oj oi : SubObject}
    (hj : objs.get? j = some oj) (hi : objs.get? i = some oi)
    (L1 L2 : NameLink) (x : NameLink) (a : Nat) :
    (x ∈ linksOf (pushLink (pushLink objs j L1) i L2) a ↔
      x ∈ linksOf objs a ∨ (a = j ∧ x = L1) ∨ (a = i ∧ x = L2)) := by
  have hi1 : (pushLink objs j L1).get? i ≠ none := by
    by_cases hij : i = j
    · subst hij
      rw [pushLink, get?_updateSub_self _ hj]
      exact Option.some_ne_none _
    · rw [pushLink, get?_updateSub_ne _ i hij, hi]
      exact Option.some_ne_none _
  obtain ⟨oi1, hoi1⟩ := Option.ne_none_iff_exists'.mp hi1
  rw [linksOf_pushLink _ hoi1 L2 a, linksOf_pushLink _ hj L1 a]
  by_cases hai : a = i <;> by_cases haj : a = j <;>
    simp_all [List.mem_append]

/-- The symmetry invariant: every link kind occurs only as a matched mutual
pair. -/
def Paired (objs : List SubObject) : Prop :=
  ∀ a b : Nat,
    (∀ k, (NameLink.detailLevel b k ∈ linksOf objs a ↔
      NameLink.detailLevelOf a k ∈ linksOf objs b)) ∧
    (NameLink.liveDebris b ∈ linksOf objs a ↔ NameLink.liveDebrisOf a ∈ linksOf objs b) ∧
    (NameLink.destroyedVersion b ∈ linksOf objs a ↔
      NameLink.destroyedVersionOf a ∈ linksOf objs b)

theorem paired_push_debris {objs : List SubObject} {j i : Nat} {oj oi : SubObject}
    (hj : objs.get? j = some oj) (hi : objs.get? i = some oi) (h : Paired objs) :
    Paired (pushLink (pushLink objs j (NameLink.liveDebris i)) i (NameLink.liveDebrisOf j)) := by
  intro a b
  have h1 := (h a b).1
  have h2 := (h a b).2.1
  have h3 := (h a b).2.2
  have h1b := (h b a).1
  refine ⟨?_, ?_, ?_⟩
  · intro k
    rw [mem_linksOf_pushPair hj hi _ _ _ a, mem_linksOf_pushPair hj hi _ _ _ b]
    simp only [reduceCtorEq, and_false, or_false, false_or]
    exact h1 k
  · rw [mem_linksOf_pushPair hj hi _ _ _ a, mem_linksOf_pushPair hj hi _ _ _ b]
    simp only [NameLink.liveDebris.injEq, NameLink.liveDebrisOf.injEq, reduceCtorEq,
      and_false, false_or, or_false]
    constructor
    · rintro (hx | ⟨rfl, rfl⟩)
      · exact Or.inl (h2.mp hx)
      · exact Or.inr ⟨rfl, rfl⟩
    · rintro (hx | ⟨rfl, rfl⟩)
      · exact Or.inl (h2.mpr hx)
      · exact Or.inr ⟨rfl, rfl⟩
  · rw [mem_linksOf_pushPair hj hi _ _ _ a, mem_linksOf_pushPair hj hi _ _ _ b]
    simp only [reduceCtorEq, and_false, or_false, false_or]
    exact h3

theorem paired_push_destroyed {objs : List SubObject} {j i : Nat} {oj oi : SubObject}
    (hj : objs.get? j = some oj) (hi : objs.get? i = some oi) (h : Paired objs) :
    Paired (pushLink (pushLink objs j (NameLink.destroyedVersion i)) i
      (NameLink.destroyedVersionOf j)) := by
  intro a b
  have h1 := (h a b).1
  have h2 := (h a b).2.1
  have h3 := (h a b).2.2
  refine ⟨?_, ?_, ?_⟩
  · intro k
    rw [mem_linksOf_pushPair hj hi _ _ _ a, mem_linksOf_pushPair hj hi _ _ _ b]
    simp only [reduceCtorEq, and_false, or_false, false_or]
    exact h1 k
  · rw [mem_linksOf_pushPair hj hi _ _ _ a, mem_linksOf_pushPair hj hi _ _ _ b]
    simp only [reduceCtorEq, and_false, or_false, false_or]
    exact h2
  · rw [mem_linksOf_pushPair hj hi _ _ _ a, mem_linksOf_pushPair hj hi _ _ _ b]
    simp only [NameLink.destroyedVersion.injEq, NameLink.destroyedVersionOf.injEq,
      reduceCtorEq, and_false, false_or, or_false]
    constructor
    · rintro (hx | ⟨rfl, rfl⟩)
      · exact Or.inl (h3.mp hx)
      · exact Or.inr ⟨rfl, rfl⟩
    · rintro (hx | ⟨rfl, rfl⟩)
      · exact Or.inl (h3.mpr hx)
      · exact Or.inr ⟨rfl, rfl⟩

theorem paired_push_detail {objs : List SubObject} {j i lvl : Nat} {oj oi : SubObject}
    (hj : objs.get? j = some oj) (hi : objs.get? i = some oi) (h : Paired objs) :
    Paired (pushLink (pushLink objs j (NameLink.detailLevelOf i lvl)) i
      (NameLink.detailLevel j lvl)) := by
  intro a b
  have h2 := (h a b).2.1
  have h3 := (h a b).2.2
  refine ⟨?_, ?_, ?_⟩
  · intro k
    have h1 := (h a b).1 k
    rw [mem_linksOf_pushPair hj hi _ _ _ a, mem_linksOf_pushPair hj hi _ _ _ b]
    simp only [NameLink.detailLevel.injEq, NameLink.detailLevelOf.injEq, reduceCtorEq,
      and_false, false_or, or_false]
    constructor
    · rintro (hx | ⟨rfl, rfl, rfl⟩)
      · exact Or.inl (h1.mp hx)
      · exact Or.inr ⟨rfl, rfl, rfl⟩
    · rintro (hx | ⟨rfl, rfl, rfl⟩)
      · exact Or.inl (h1.mpr hx)
      · exact Or.inr ⟨rfl, rfl, rfl⟩
  · rw [mem_linksOf_pushPair hj hi _ _ _ a, mem_linksOf_pushPair hj hi _ _ _ b]
    simp only [reduceCtorEq, and_false, or_false, false_or]
    exact h2
  · rw [mem_linksOf_pushPair hj hi _ _ _ a, mem_linksOf_pushPair hj hi _ _ _ b]
    simp only [reduceCtorEq, and_false, or_false, false_or]
    exact h3

theorem WFIds_pushLink {objs : List SubObject} {idx : Nat} {L : NameLink} (h : WFIds objs) :
    WFIds (pushLink objs idx L) := by
  intro o' ho'
  rw [length_pushLink]
  cases hg : objs.get? idx with
  | none =>
    rw [pushLink_oob _ hg] at ho'
    exact h o' ho'
  | some o =>
    have heq : pushLink objs idx L = objs.set idx { o with nameLinks := o.nameLinks ++ [L] } := by
      rw [pushLink, updateSub, hg]
    rw [heq] at ho'
    rcases List.mem_or_eq_of_mem_set ho' with hmem | rfl
    · exact h o' hmem
    · exact h o (List.get?_mem hg)

theorem length_debrisCheck (objs : List SubObject) (i : Nat) :
    (debrisCheck objs i).length = objs.length := by
  rw [debrisCheck]
  split
  · split
    · rw [length_pushLink, length_pushLink]
    · rfl
  · rfl

theorem WFIds_debrisCheck {objs : List SubObject} (i : Nat) (h : WFIds objs) :
    WFIds (debrisCheck objs i) := by
  rw [debrisCheck]
  split
  · split
    · refine fun o' ho' => ?_
      have := WFIds_pushLink (WFIds_pushLink h) o' ho'
      simpa [length_pushLink] using this
    · exact h
  · exact h

theorem paired_debrisCheck {objs : List SubObject} {i : Nat} (hwf : WFIds objs)
    (hi : i < objs.length) (h : Paired objs) : Paired (debrisCheck objs i) := by
  rw [debrisCheck]
  split
  · split
    · rename_i obj hf
      have hjlt : obj.objId < objs.length := hwf obj (List.mem_of_find?_eq_some hf)
      exact paired_push_debris (List.get?_eq_get hjlt) (List.get?_eq_get hi) h
    · exact h
  · exact h

theorem length_destroyedCheck (objs : List SubObject) (i : Nat) :
    (destroyedCheck objs i).length = objs.length := by
  rw [destroyedCheck]
  split
  · split
    · rw [length_pushLink, length_pushLink]
    · rfl
  · rfl

theorem WFIds_destroyedCheck {objs : List SubObject} (i : Nat) (h : WFIds objs) :
    WFIds (destroyedCheck objs i) := by
  rw [destroyedCheck]
  split
  · split
    · refine fun o' ho' => ?_
      have := WFIds_pushLink (WFIds_pushLink h) o' ho'
      simpa [length_pushLink] using this
    · exact h
  · exact h

theorem paired_destroyedCheck {objs : List SubObject} {i : Nat} (hwf : WFIds objs)
    (hi : i < objs.length) (h : Paired objs) : Paired (destroyedCheck objs i) := by
  rw [destroyedCheck]
  split
  · split
    · rename_i obj hf
      have hjlt : obj.objId < objs.length := hwf obj (List.mem_of_find?_eq_some hf)
      exact paired_push_destroyed (List.get?_eq_get hjlt) (List.get?_eq_get hi) h
    · exact h
  · exact h

theorem length_detailCheck (objs : List SubObject) (i j : Nat) :
    (detailCheck objs i j).length = objs.length := by
  rw [detailCheck]
  split
  · split
    · split
      · rw [length_pushLink, length_pushLink]
      · rfl
    · rfl
  · rfl

theorem WFIds_detailCheck {objs : List SubObject} (i j : Nat) (h : WFIds objs) :
    WFIds (detailCheck objs i j) := by
  rw [detailCheck]
  split
  · split
    · split
      · refine fun o' ho' => ?_
        have := WFIds_pushLink (WFIds_pushLink h) o' ho'
        simpa [length_pushLink] using this
      · exact h
    · exact h
  · exact h

theorem paired_detailCheck {objs : List SubObject} {i j : Nat}
    (hi : i < objs.length) (hj : j < objs.length) (h : Paired objs) :
    Paired (detailCheck objs i j) := by
  rw [detailCheck]
  split
  · split
    · split
      · exact paired_push_detail (List.get?_eq_get hj) (List.get?_eq_get hi) h
      · exact h
    · exact h
  · exact h

theorem detailFold_paired {i : Nat} :
    ∀ (l : List Nat) (objs : List SubObject), WFIds objs → i < objs.length →
      (∀ j ∈ l, j < objs.length) → Paired objs →
      Paired (l.foldl (fun acc j => detailCheck acc i j) objs) := by
  intro l
  induction l with
  | nil => intro objs _ _ _ h; exact h
  | cons j t ih =>
    intro objs hwf hi hl h
    rw [List.foldl_cons]
    have hlen := length_detailCheck objs i j
    refine ih (detailCheck objs i j) (WFIds_detailCheck i j hwf) (by omega) ?_
      (paired_detailCheck hi (hl j (List.mem_cons_self j t)) h)
    intro j' hj'
    rw [hlen]
    exact hl j' (List.mem_cons_of_mem j hj')

theorem length_recalcStep (objs : List SubObject) (i : Nat) :
    (recalcStep objs i).length = objs.length := by
  rw [recalcStep]
  have h1 := length_debrisCheck objs i
  have h2 := length_destroyedCheck (debrisCheck objs i) i
  have h3 : ∀ (l : List Nat) (os : List SubObject),
      (l.foldl (fun acc j => detailCheck acc i j) os).length = os.length := by
    intro l
    induction l with
    | nil => intro os; rfl
    | cons j t ih =>
      intro os
      rw [List.foldl_cons, ih, length_detailCheck]
  rw [h3, h2, h1]

theorem WFIds_recalcStep {objs : List SubObject} (i : Nat) (h : WFIds objs) :
    WFIds (recalcStep objs i) := by
  rw [recalcStep]
  have hwf2 := WFIds_destroyedCheck i (WFIds_debrisCheck i h)
  have hfold : ∀ (l : List Nat) (os : List SubObject), WFIds os →
      WFIds (l.foldl (fun acc j => detailCheck acc i j) os) := by
    intro l
    induction l with
    | nil => intro os hos; exact hos
    | cons j t ih =>
      intro os hos
      rw [List.foldl_cons]
      exact ih _ (WFIds_detailCheck i j hos)
  refine fun o' ho' => ?_
  have hl := length_recalcStep objs i
  rw [recalcStep] at hl
  have := hfold _ _ hwf2 o' ho'
  omega

theorem paired_recalcStep {objs : List SubObject} {i : Nat} (hwf : WFIds objs)
    (hi : i < objs.length) (h : Paired objs) : Paired (recalcStep objs i) := by
  have hl1 := length_debrisCheck objs i
  have hl2 := length_destroyedCheck (debrisCheck objs i) i
  have hwf1 := WFIds_debrisCheck i hwf
  have hwf2 := WFIds_destroyedCheck i hwf1
  have hp1 := paired_debrisCheck hwf hi h
  have hidl : i < (debrisCheck objs i).length := by omega
  have hp2 := paired_destroyedCheck hwf1 hidl hp1
  have hilen : i < (destroyedCheck (debrisCheck objs i) i).length := by omega
  rw [recalcStep]
  exact detailFold_paired _ _ hwf2 hilen (fun j hj => List.mem_range.mp hj) hp2

theorem paired_cleared (objs : List SubObject) :
    Paired (objs.map fun o => { o with nameLinks := [] }) := by
  intro a b
  have hempty : ∀ x, linksOf (objs.map fun o => { o with nameLinks := [] }) x = [] := by
    intro x
    rw [linksOf, List.get?_map]
    cases objs.get? x <;> rfl
  simp [hempty]

theorem WFIds_cleared {objs : List SubObject} (h : WFIds objs) :
    WFIds (objs.map fun o => { o with nameLinks := [] }) := by
  intro o' ho'
  rw [List.length_map]
  rcases List.mem_map.mp ho' with ⟨o, ho, rfl⟩
  exact h o ho

/-- Claim C6: after `recalc_semantic_name_links`, name links come only in
reciprocal pairs — `A` carries `DetailLevel(B, k)` iff `B` carries
`DetailLevelOf(A, k)` at the same level, and likewise
`LiveDebris`/`LiveDebrisOf` and `DestroyedVersion`/`DestroyedVersionOf`
occur only as matched mutual pairs. -/
theorem name_links_paired :
    ∀ objs : List SubObject, WFIds objs → Paired (recalc_semantic_name_links objs) := by
  intro objs hwf
  rw [recalc_semantic_name_links]
  have hfold : ∀ (l : List Nat) (os : List SubObject), WFIds os →
      (∀ i ∈ l, i < os.length) → Paired os → Paired (l.foldl recalcStep os) := by
    intro l
    induction l with
    | nil => intro os _ _ h; exact h
    | cons i t ih =>
      intro os hos hl h
      rw [List.foldl_cons]
      have hlen := length_recalcStep os i
      refine ih _ (WFIds_recalcStep i hos) ?_
        (paired_recalcStep hos (hl i (List.mem_cons_self i t)) h)
      intro i' hi'
      rw [hlen]
      exact hl i' (List.mem_cons_of_mem i hi')
  refine hfold _ _ (WFIds_cleared hwf) ?_ (paired_cleared objs)
  intro i hi
  exact List.mem_range.mp hi

/-- A model generating one live-debris pair, for the pairedness witness. -/
def dbModel : List SubObject :=
  [{ objId := 0, parent := none, offset := Vec3d.zero, name := "hull".toList, children := [],
     nameLinks := [] },
   { objId := 1, parent := none, offset := Vec3d.zero, name := "debris-hull".toList,
     children := [], nameLinks := [] }]

theorem name_links_paired_witness : Paired (recalc_semantic_name_links dbModel) :=
  name_links_paired dbModel (fun o ho => by fin_cases ho <;> decide)

/-- The fields of a subobject that the name-link pass reads but never
writes: id, parent, name. -/
def proj (o : SubObject) : Nat × Option Nat × List Char := (o.objId, o.parent, o.name)

theorem map_proj_pushLink (objs : List SubObject) (idx : Nat) (L : NameLink) :
    (pushLink objs idx L).map proj = objs.map proj := by
  cases hg : objs.get? idx with
  | none => rw [pushLink_oob _ hg]
  | some o =>
    have heq : pushLink objs idx L = objs.set idx { o with nameLinks := o.nameLinks ++ [L] } := by
      rw [pushLink, updateSub, hg]
    rw [heq, List.map_set]
    apply List.ext_get?
    intro n
    by_cases hn : n = idx
    · subst hn
      have hlt : n < objs.length := (List.get?_eq_some.mp hg).1
      rw [List.get?_set_eq_of_lt _ (by rw [List.length_map]; exact hlt), List.get?_map, hg]
      rfl
    · rw [List.get?_set_ne _ _ (Ne.symm hn)]

theorem length_eq_of_map_proj {objs1 objs2 : List SubObject}
    (h : objs1.map proj = objs2.map proj) : objs1.length = objs2.length := by
  have := congrArg List.length h
  simpa using this

theorem nameOf_eq_of_map_proj {objs1 objs2 : List SubObject}
    (h : objs1.map proj = objs2.map proj) (a : Nat) : nameOf objs1 a = nameOf objs2 a := by
  have hg := congrArg (fun l => l.get? a) h
  simp only [List.get?_map] at hg
  rw [nameOf, nameOf]
  cases h1 : objs1.get? a <;> cases h2 : objs2.get? a <;> rw [h1, h2] at hg <;>
    simp_all [proj, Prod.ext_iff]

theorem find?_objId_of_map_proj (q : List Char → Bool) :
    ∀ (objs1 objs2 : List SubObject), objs1.map proj = objs2.map proj →
      Option.map SubObject.objId (objs1.find? fun o => q o.name) =
        Option.map SubObject.objId (objs2.find? fun o => q o.name) := by
  intro objs1
  induction objs1 with
  | nil =>
    intro objs2 h
    cases objs2 with
    | nil => rfl
    | cons b t2 => simp at h
  | cons a t1 ih =>
    intro objs2 h
    cases objs2 with
    | nil => simp at h
    | cons b t2 =>
      simp only [List.map_cons, List.cons.injEq] at h
      have hname : a.name = b.name := by
        have hp := h.1
        simp only [proj, Prod.ext_iff] at hp
        exact hp.2.2
      have hid : a.objId = b.objId := by
        have hp := h.1
        simp only [proj, Prod.ext_iff] at hp
        exact hp.1
      rw [List.find?, List.find?, hname]
      cases hq : q b.name with
      | true => simp [hid]
      | false => simpa using ih t2 h.2

theorem map_proj_debrisCheck (objs : List SubObject) (i : Nat) :
    (debrisCheck objs i).map proj = objs.map proj := by
  rw [debrisCheck]
  split
  · split
    · rw [map_proj_pushLink, map_proj_pushLink]
    · rfl
  · rfl

theorem map_proj_destroyedCheck (objs : List SubObject) (i : Nat) :
    (destroyedCheck objs i).map proj = objs.map proj := by
  rw [destroyedCheck]
  split
  · split
    · rw [map_proj_pushLink, map_proj_pushLink]
    · rfl
  · rfl

theorem map_proj_detailCheck (objs : List SubObject) (i j : Nat) :
    (detailCheck objs i j).map proj = objs.map proj := by
  rw [detailCheck]
  split
  · split
    · split
      · rw [map_proj_pushLink, map_proj_pushLink]
      · rfl
    · rfl
  · rfl

theorem map_proj_recalcStep (objs : List SubObject) (i : Nat) :
    (recalcStep objs i).map proj = objs.map proj := by
  rw [recalcStep]
  have hfold : ∀ (l : List Nat) (os : List SubObject),
      (l.foldl (fun acc j => detailCheck acc i j) os).map proj = os.map proj := by
    intro l
    induction l with
    | nil => intro os; rfl
    | cons j t ih =>
      intro os
      rw [List.foldl_cons, ih, map_proj_detailCheck]
  rw [hfold, map_proj_destroyedCheck, map_proj_debrisCheck]

theorem mem_linksOf_pushLink_mono {objs : List SubObject} {a : Nat} {x : NameLink}
    (idx : Nat) (L : NameLink) (h : x ∈ linksOf objs a) :
    x ∈ linksOf (pushLink objs idx L) a := by
  cases hg : objs.get? idx with
  | none =>
    rw [pushLink_oob _ hg]
    exact h
  | some o =>
    rw [linksOf_pushLink _ hg]
    by_cases ha : a = idx
    · rw [if_pos ha]
      exact List.mem_append_left _ h
    · rw [if_neg ha]
      exact h

theorem mem_linksOf_debrisCheck_mono {objs : List SubObject} {a : Nat} {x : NameLink}
    (i : Nat) (h : x ∈ linksOf objs a) : x ∈ linksOf (debrisCheck objs i) a := by
  rw [debrisCheck]
  split
  · split
    · exact mem_linksOf_pushLink_mono _ _ (mem_linksOf_pushLink_mono _ _ h)
    · exact h
  · exact h

theorem mem_linksOf_destroyedCheck_mono {objs : List SubObject} {a : Nat} {x : NameLink}
    (i : Nat) (h : x ∈ linksOf objs a) : x ∈ linksOf (destroyedCheck objs i) a := by
  rw [destroyedCheck]
  split
  · split
    · exact mem_linksOf_pushLink_mono _ _ (mem_linksOf_pushLink_mono _ _ h)
    · exact h
  · exact h

theorem mem_linksOf_detailCheck_mono {objs : List SubObject} {a : Nat} {x : NameLink}
    (i j : Nat) (h : x ∈ linksOf objs a) : x ∈ linksOf (detailCheck objs i j) a := by
  rw [detailCheck]
  split
  · split
    · split
      · exact mem_linksOf_pushLink_mono _ _ (mem_linksOf_pushLink_mono _ _ h)
      · exact h
    · exact h
  · exact h

theorem mem_linksOf_detailFold_mono {i : Nat} {a : Nat} {x : NameLink} :
    ∀ (l : List Nat) (objs : List SubObject), x ∈ linksOf objs a →
      x ∈ linksOf (l.foldl (fun acc j => detailCheck acc i j) objs) a := by
  intro l
  induction l with
  | nil => intro objs h; exact h
  | cons j t ih =>
    intro objs h
    rw [List.foldl_cons]
    exact ih _ (mem_linksOf_detailCheck_mono i j h)

theorem mem_linksOf_recalcStep_mono {objs : List SubObject} {a : Nat} {x : NameLink}
    (i : Nat) (h : x ∈ linksOf objs a) : x ∈ linksOf (recalcStep objs i) a := by
  rw [recalcStep]
  exact mem_linksOf_detailFold_mono _ _
    (mem_linksOf_destroyedCheck_mono i (mem_linksOf_debrisCheck_mono i h))

theorem mem_linksOf_foldl_recalcStep_mono {a : Nat} {x : NameLink} :
    ∀ (l : List Nat) (objs : List SubObject), x ∈ linksOf objs a →
      x ∈ linksOf (l.foldl recalcStep objs) a := by
  intro l
  induction l with
  | nil => intro objs h; exact h
  | cons i t ih =>
    intro objs h
    rw [List.foldl_cons]
    exact ih _ (mem_linksOf_recalcStep_mono i h)

/-- If subobject `i`'s name contains `"debris-"` and the first subobject whose
name is a prefix of the remainder has id `j`, then the debris check for `i`
records the reciprocal live-debris pair. -/
theorem debrisCheck_establishes {s : List SubObject} {i : Nat} {pre r : List Char} {j : Nat}
    (hs : splitOnce (nameOf s i) debrisPat = some (pre, r))
    (hf : Option.map SubObject.objId (s.find? fun o => listStartsWith r o.name) = some j)
    (hwf : WFIds s) (hi : i < s.length) :
    NameLink.liveDebris i ∈ linksOf (debrisCheck s i) j ∧
      NameLink.liveDebrisOf j ∈ linksOf (debrisCheck s i) i := by
  cases hfind : s.find? (fun o => listStartsWith r o.name) with
  | none =>
    rw [hfind] at hf
    simp at hf
  | some obj =>
    have hj : obj.objId = j := by
      rw [hfind] at hf
      simpa using hf
    subst hj
    simp only [debrisCheck, hs, hfind]
    have hjlt : obj.objId < s.length := hwf obj (List.mem_of_find?_eq_some hfind)
    have hjget : s.get? obj.objId = some (s.get ⟨obj.objId, hjlt⟩) :=
      List.get?_eq_some.mpr ⟨hjlt, rfl⟩
    have higet : s.get? i = some (s.get ⟨i, hi⟩) :=
      List.get?_eq_some.mpr ⟨hi, rfl⟩
    exact ⟨(mem_linksOf_pushPair hjget higet _ _ _ _).mpr (Or.inr (Or.inl ⟨rfl, rfl⟩)),
      (mem_linksOf_pushPair hjget higet _ _ _ _).mpr (Or.inr (Or.inr ⟨rfl, rfl⟩))⟩

/-- Running `recalcStep` over any index list containing `i`, from any state
whose ids, parents and names agree with `objs`, records the live-debris pair
between `i` and the first name-prefix match `j`. -/
theorem debris_links_after_fold {objs : List SubObject} {i : Nat} {pre r : List Char} {j : Nat}
    (hilen : i < objs.length)
    (hsplit : splitOnce (nameOf objs i) debrisPat = some (pre, r))
    (hfind : Option.map SubObject.objId (objs.find? fun o => listStartsWith r o.name) = some j) :
    ∀ (l : List Nat) (s : List SubObject), i ∈ l → s.map proj = objs.map proj → WFIds s →
      NameLink.liveDebris i ∈ linksOf (l.foldl recalcStep s) j ∧
        NameLink.liveDebrisOf j ∈ linksOf (l.foldl recalcStep s) i := by
  intro l
  induction l with
  | nil =>
    intro s hmem _ _
    cases hmem
  | cons i' t ih =>
    intro s hmem hproj hwf
    rw [List.foldl_cons]
    by_cases hii : i' = i
    · subst hii
      have hsplit' : splitOnce (nameOf s i') debrisPat = some (pre, r) := by
        rw [nameOf_eq_of_map_proj hproj]
        exact hsplit
      have hfind' :
          Option.map SubObject.objId (s.find? fun o => listStartsWith r o.name) = some j := by
        rw [find?_objId_of_map_proj _ s objs hproj]
        exact hfind
      have hi' : i' < s.length := by
        rw [length_eq_of_map_proj hproj]
        exact hilen
      have hest := debrisCheck_establishes hsplit' hfind' hwf hi'
      have hstep1 : NameLink.liveDebris i' ∈ linksOf (recalcStep s i') j := by
        simp only [recalcStep]
        exact mem_linksOf_detailFold_mono _ _ (mem_linksOf_destroyedCheck_mono i' hest.1)
      have hstep2 : NameLink.liveDebrisOf j ∈ linksOf (recalcStep s i') i' := by
        simp only [recalcStep]
        exact mem_linksOf_detailFold_mono _ _ (mem_linksOf_destroyedCheck_mono i' hest.2)
      exact ⟨mem_linksOf_foldl_recalcStep_mono t _ hstep1,
        mem_linksOf_foldl_recalcStep_mono t _ hstep2⟩
    · have hmem' : i ∈ t := by
        cases List.mem_cons.mp hmem with
        | inl h => exact absurd h.symm hii
        | inr h => exact h
      exact ih (recalcStep s i') hmem' ((map_proj_recalcStep s i').trans hproj)
        (WFIds_recalcStep i' hwf)

/-- Claim C3 (amended): during `recalc_semantic_name_links`, if a subobject
`i`'s name contains `"debris-"` and the NAME of some other subobject is a
prefix of the REMAINDER of `i`'s name after `"debris-"` (the code checks
`debris_of.starts_with(&obj.name)`, not the claim's reverse direction), then
the first such subobject `obj` (in vector order) and `i` are linked as a
live-debris pair: `obj` carries `LiveDebris(i)` and `i` carries
`LiveDebrisOf(obj)`. -/
theorem recalc_debris_links_amended (objs : List SubObject) (i : Nat) (pre r : List Char)
    (obj : SubObject) (hwf : WFIds objs) (hi : i < objs.length)
    (hsplit : splitOnce (nameOf objs i) debrisPat = some (pre, r))
    (hfind : objs.find? (fun o => listStartsWith r o.name) = some obj) :
    NameLink.liveDebris i ∈ linksOf (recalc_semantic_name_links objs) obj.objId ∧
      NameLink.liveDebrisOf obj.objId ∈ linksOf (recalc_semantic_name_links objs) i := by
  simp only [recalc_semantic_name_links]
  have hprojc : (objs.map fun o => { o with nameLinks := [] }).map proj = objs.map proj := by
    rw [List.map_map]
    exact List.map_congr_left (fun o _ => rfl)
  refine debris_links_after_fold hi hsplit (by rw [hfind]; rfl) _ _ ?_ hprojc (WFIds_cleared hwf)
  rw [List.length_map]
  exact List.mem_range.mpr hi

theorem recalc_debris_links_amended_witness :
    NameLink.liveDebris 1 ∈ linksOf (recalc_semantic_name_links dbModel) 0 ∧
      NameLink.liveDebrisOf 0 ∈ linksOf (recalc_semantic_name_links dbModel) 1 :=
  recalc_debris_links_amended dbModel 1 [] "hull".toList
    { objId := 0, parent := none, offset := Vec3d.zero, name := "hull".toList, children := [],
      nameLinks := [] }
    (fun o ho => by fin_cases ho <;> decide) (by decide) (by decide) (by decide)

end Pof
